import Mathlib

/-!
Verification of the Clean250 storage-optimizer core (Electron main process,
`public/electron.js`).  The definitions below are a shallow embedding of the
JavaScript source: the directory scanner, the classifier (`analyzeFiles`),
the duplicate detector (`find-duplicates` handler), and the backup / delete /
restore store.  Filesystem reads are modelled by explicit tree or map values,
fallible writes by an explicit success oracle, and the wall clock by an
explicit `now` parameter.  All definitions are executable.
-/

namespace Clean250

/-! ## String and path helpers (models of Node `path` functions) -/

/-- Model of `String.includes` / substring search on character lists. -/
def listHasInfix [DecidableEq α] : List α → List α → Bool
  | _, [] => true
  | [], _ :: _ => false
  | a :: as, b :: bs =>
    (a = b && List.isPrefixOf bs as) || listHasInfix as (b :: bs)

/-- Model of substring search: `strContains hay needle` models JavaScript `hay.includes(needle)`. -/
def strContains (hay needle : String) : Bool :=
  listHasInfix hay.data needle.data

/-- Model of `path.join(a, b)` for the simple relative joins the code uses. -/
def pathJoin (a b : String) : String := a ++ "/" ++ b

/-- Split a character list at `/`, keeping empty segments (the behavior of
`"â€¦".split("/")`); always returns at least one segment. -/
def splitSlash : List Char → List (List Char)
  | [] => [[]]
  | c :: cs =>
    let rest := splitSlash cs
    if c = '/' then [] :: rest
    else
      match rest with
      | [] => [[c]]
      | r :: rs => (c :: r) :: rs

/-- The `/`-separated components of a path. -/
def pathParts (p : String) : List String := (splitSlash p.data).map String.mk

/-- Re-join components with `/`. -/
def joinParts : List String → String
  | [] => ""
  | [s] => s
  | s :: rest => s ++ "/" ++ joinParts rest

/-- Model of `path.basename`: the part after the final `/`. -/
def basename (p : String) : String :=
  match (pathParts p).getLast? with
  | some s => s
  | none => p

/-- Model of `path.dirname`: everything before the final `/`, `"."` when the
path has no separator.  (Node normalizes some absolute-path edge cases the
model does not need.) -/
def dirname (p : String) : String :=
  let parts := pathParts p
  if parts.length ≤ 1 then "." else joinParts parts.dropLast

/-- Last index of `c`, scanning a character list. -/
def lastIdxOf (c : Char) : List Char → Option Nat
  | [] => none
  | a :: as =>
    match lastIdxOf c as with
    | some i => some (i + 1)
    | none => if a = c then some 0 else none

/-- Model of `path.extname` applied to a basename: the suffix from the last
dot, empty when there is no dot or the only dot is the leading character. -/
def extname (name : String) : String :=
  match lastIdxOf '.' name.data with
  | none => ""
  | some 0 => ""
  | some i => String.mk (name.data.drop i)

/-- ASCII plus Russian-alphabet lower-casing, modelling the case folding the
`/i` regex flag performs on the characters the classifier's pattern uses. -/
def charLowerExt (c : Char) : Char :=
  if 'A' ≤ c ∧ c ≤ 'Z' then Char.ofNat (c.toNat + 32)
  else if 0x410 ≤ c.toNat ∧ c.toNat ≤ 0x42F then Char.ofNat (c.toNat + 32)
  else if c.toNat = 0x401 then Char.ofNat 0x451
  else c

/-- Extended `toLowerCase` model (ASCII and Cyrillic letters). -/
def strLowerExt (s : String) : String := String.mk (s.data.map charLowerExt)

/-! ## Duplicate detector: data model -/

/-- What `stat`/`open`/`read` observe for one candidate path: whether it is a
directory, its byte content, and whether reading it succeeds (`readable =
false` models the I/O errors `calculateFileHash` catches and turns into a
`null` hash). -/
structure DCand where
  isDir : Bool
  content : List Nat
  readable : Bool
  deriving Repr, DecidableEq

/-- The filesystem visible to the duplicate detector: an association of path
to candidate.  A missing path models `stat` throwing (file vanished). -/
abbrev DFs := List (String × DCand)

def dfsLookup (fs : DFs) (p : String) : Option DCand :=
  match fs with
  | [] => none
  | (q, c) :: rest => if q = p then some c else dfsLookup rest p

/-- Options of the `find-duplicates` handler, after JavaScript default
resolution (`exactMatch !== false`, `sampleSize || 4096`,
`compareSize !== false`; `minSize`/`maxSize` are falsy-disabled, 0 = absent). -/
structure DupOpts where
  exactMatch : Bool := true
  sampleSize : Nat := 0
  compareSize : Bool := true
  minSize : Nat := 0
  maxSize : Nat := 0
  deriving Repr, DecidableEq

/-- The head / middle / tail windows `calculateFileHash` reads when sampling:
`sampleSize` bytes from offset 0, from `⌊size/2⌋ - ⌊sampleSize/2⌋`, and from
`size - sampleSize`. -/
def sampleWindows (content : List Nat) (s : Nat) : List Nat :=
  let size := content.length
  let middlePos := size / 2 - s / 2
  let endPos := size - s
  content.take s ++ (content.drop middlePos).take s ++ (content.drop endPos).take s

/-- Model of `calculateFileHash(filePath, algorithm, sampleSize)`.  The digest
function `H` abstracts `crypto.createHash(..).digest`.  Returns `none` exactly
when reading the file fails (the function catches the error and returns
`null`). -/
def calculateFileHash (H : List Nat → Nat) (c : DCand) (sampleSize : Option Nat) :
    Option Nat :=
  if c.readable then
    match sampleSize with
    | some s =>
      if s ≠ 0 ∧ s * 3 < c.content.length then some (H (sampleWindows c.content s))
      else some (H c.content)
    | none => some (H c.content)
  else none

/-- The record pushed into the size-keyed map `fileHashes`
(`{path, hash, size, name, extension}`). -/
structure FRec where
  path : String
  hash : Option Nat
  size : Nat
  name : String
  extension : String
  deriving Repr, DecidableEq

/-- The record pushed into `potentialDuplicates` and returned in groups
(`{path, size, name, extension}` — the hash field is not copied). -/
structure FOut where
  path : String
  size : Nat
  name : String
  extension : String
  deriving Repr, DecidableEq

def FRec.toOut (r : FRec) : FOut :=
  { path := r.path, size := r.size, name := r.name, extension := r.extension }

/-- A duplicate group as returned: the shared hash key, `files[0].size`, and
the member records. -/
structure DGroup where
  hash : Option Nat
  size : Nat
  files : List FOut
  deriving Repr, DecidableEq

/-- Insertion into a JavaScript `Map` of arrays
(`if (!m.has(k)) m.set(k, []); m.get(k).push(v)`): association list keyed in
first-insertion order, each bucket in push order. -/
def addToBucket [DecidableEq κ] (k : κ) (v : α) : List (κ × List α) → List (κ × List α)
  | [] => [(k, [v])]
  | (k', vs) :: rest =>
    if k = k' then (k', vs ++ [v]) :: rest else (k', vs) :: addToBucket k v rest

/-- Fold a list into buckets keyed by `key`, storing `proj` of each element. -/
def buildBuckets [DecidableEq κ] (key : α → κ) (proj : α → β) (l : List α) :
    List (κ × List β) :=
  l.foldl (fun m a => addToBucket (key a) (proj a) m) []

/-- The hash the handler computes for one candidate: whole-file when
`exactMatch` (the `!== false` default), otherwise sampled with
`sampleSize || 4096`. -/
def hashForOpts (H : List Nat → Nat) (opts : DupOpts) (c : DCand) : Option Nat :=
  if opts.exactMatch then calculateFileHash H c none
  else calculateFileHash H c (some (if opts.sampleSize = 0 then 4096 else opts.sampleSize))

/-- Mutable state of the `find-duplicates` handler: the size-keyed map
`fileHashes`, the hash-keyed map `potentialDuplicates`, and the `processed`
counter. -/
structure DetState where
  fileHashes : List (Nat × List FRec)
  potentialDuplicates : List (Option Nat × List FOut)
  processed : Nat
  deriving Repr, DecidableEq

/-- One iteration of the per-file loop body (the callback inside
`Promise.all`): a vanished path (`stat` throws, caught), a directory, or a
file outside the `minSize`/`maxSize` bounds only bumps `processed`; otherwise
the hash is computed (`null` on read failure) and the record is pushed into
the size map (size pre-check on) or the hash map (pre-check off). -/
def detStep (H : List Nat → Nat) (fs : DFs) (opts : DupOpts)
    (st : DetState) (p : String) : DetState :=
  match dfsLookup fs p with
  | none => { st with processed := st.processed + 1 }
  | some c =>
    if c.isDir then { st with processed := st.processed + 1 }
    else if opts.minSize ≠ 0 ∧ c.content.length < opts.minSize then
      { st with processed := st.processed + 1 }
    else if opts.maxSize ≠ 0 ∧ opts.maxSize < c.content.length then
      { st with processed := st.processed + 1 }
    else
      let h := hashForOpts H opts c
      let r : FRec := { path := p, hash := h, size := c.content.length,
                        name := basename p,
                        extension := strLowerExt (extname (basename p)) }
      if opts.compareSize then
        { st with fileHashes := addToBucket c.content.length r st.fileHashes,
                  processed := st.processed + 1 }
      else
        { st with potentialDuplicates :=
                    addToBucket h r.toOut st.potentialDuplicates,
                  processed := st.processed + 1 }

/-- The second stage (run only with the size pre-check): every size bucket
with at least two files is re-grouped by hash into `potentialDuplicates`. -/
def mergeStage (st : DetState) : DetState :=
  { st with potentialDuplicates :=
      st.fileHashes.foldl (fun pd kv =>
        if 1 < kv.2.length then
          kv.2.foldl (fun pd f => addToBucket f.hash f.toOut pd) pd
        else pd) st.potentialDuplicates }

def headSize : List FOut → Nat
  | [] => 0
  | v :: _ => v.size

/-- Group extraction pass: each hash bucket with more than one file becomes a
group (`{hash, size: files[0].size, files}`) while `totalDuplicates` and
`potentialSavings` accumulate. -/
def extractGroups (pd : List (Option Nat × List FOut)) :
    List DGroup × Nat × Nat :=
  pd.foldl (fun acc kv =>
    if 1 < kv.2.length then
      (acc.1 ++ [⟨kv.1, headSize kv.2, kv.2⟩],
       acc.2.1 + (kv.2.length - 1),
       acc.2.2 + headSize kv.2 * (kv.2.length - 1))
    else acc) ([], 0, 0)

/-- The result object of the `find-duplicates` handler. -/
structure DupResult where
  duplicateGroups : List DGroup
  totalDuplicates : Nat
  potentialSavings : Nat
  processed : Nat
  deriving Repr, DecidableEq

/-- The `find-duplicates` handler on an explicit path list (the
`options.scanDirectory` pre-walk is outside the claims modelled here): run the
batch loop over every path, merge size buckets by hash when the size pre-check
is on, extract groups and totals, and sort groups descending by
`size * files.length` (a stable sort, as V8's). -/
def findDuplicates (H : List Nat → Nat) (fs : DFs) (opts : DupOpts)
    (paths : List String) : DupResult :=
  let st := paths.foldl (detStep H fs opts) ⟨[], [], 0⟩
  let st' := if opts.compareSize then mergeStage st else st
  let (gs, td, ps) := extractGroups st'.potentialDuplicates
  { duplicateGroups :=
      gs.mergeSort (fun a b => decide (b.size * b.files.length ≤ a.size * a.files.length))
    totalDuplicates := td
    potentialSavings := ps
    processed := st'.processed }

/-! ### Analytic characterizations of the detector state (proved below) -/

/-- Whether a candidate survives the per-file checks of the batch loop: it
exists, is not a directory, and passes the falsy-guarded `minSize`/`maxSize`
bounds. -/
def eligible (fs : DFs) (opts : DupOpts) (p : String) : Bool :=
  match dfsLookup fs p with
  | none => false
  | some c =>
    if c.isDir then false
    else if opts.minSize ≠ 0 ∧ c.content.length < opts.minSize then false
    else if opts.maxSize ≠ 0 ∧ opts.maxSize < c.content.length then false
    else true

/-- The stage-1 record the loop builds for an eligible path (`none` when the
path is skipped: vanished, a directory, or out of size bounds). -/
def recOf (H : List Nat → Nat) (fs : DFs) (opts : DupOpts) (p : String) : Option FRec :=
  match dfsLookup fs p with
  | none => none
  | some c =>
    if eligible fs opts p then
      some { path := p, hash := hashForOpts H opts c, size := c.content.length,
             name := basename p, extension := strLowerExt (extname (basename p)) }
    else none

/-- The records created by the batch loop, in input order. -/
def procRecs (H : List Nat → Nat) (fs : DFs) (opts : DupOpts) (paths : List String) :
    List FRec :=
  paths.filterMap (recOf H fs opts)

/-- First-match association lookup into a bucket map, empty for a missing
key. -/
def bGet [DecidableEq κ] : List (κ × List α) → κ → List α
  | [], _ => []
  | (k', vs) :: rest, k => if k' = k then vs else bGet rest k

def keysOf (m : List (κ × List α)) : List κ := m.map Prod.fst

/-- Push a whole list into the bucket map, element by element. -/
def pushAll [DecidableEq κ] (key : α → κ) (proj : α → β)
    (m : List (κ × List β)) (l : List α) : List (κ × List β) :=
  l.foldl (fun m a => addToBucket (key a) (proj a) m) m

theorem buildBuckets_eq_pushAll [DecidableEq κ] (key : α → κ) (proj : α → β)
    (l : List α) : buildBuckets key proj l = pushAll key proj [] l := rfl

theorem bGet_addToBucket [DecidableEq κ] (k k' : κ) (v : α) (m : List (κ × List α)) :
    bGet (addToBucket k v m) k' =
      if k = k' then bGet m k' ++ [v] else bGet m k' := by
  induction m with
  | nil => by_cases h : k = k' <;> simp [addToBucket, bGet, h]
  | cons kv rest ih =>
    obtain ⟨k₀, vs₀⟩ := kv
    simp only [addToBucket]
    by_cases h0 : k = k₀
    · subst h0
      by_cases h1 : k = k' <;> simp [bGet, h1]
    · simp only [if_neg h0, bGet]
      by_cases h1 : k₀ = k'
      · subst h1
        simp [bGet, h0]
      · simp [bGet, h1, ih]

theorem keysOf_addToBucket [DecidableEq κ] (k : κ) (v : α) (m : List (κ × List α)) :
    keysOf (addToBucket k v m) =
      if k ∈ keysOf m then keysOf m else keysOf m ++ [k] := by
  induction m with
  | nil => simp [addToBucket, keysOf]
  | cons kv rest ih =>
    obtain ⟨k₀, vs₀⟩ := kv
    simp only [addToBucket]
    by_cases h0 : k = k₀
    · subst h0; simp [keysOf]
    · simp only [if_neg h0]
      have hx : (k ∈ keysOf ((k₀, vs₀) :: rest)) ↔ k ∈ keysOf rest := by
        simp [keysOf, h0]
      by_cases h1 : k ∈ keysOf rest
      · rw [if_pos (hx.mpr h1)]
        have h2 := ih
        rw [if_pos h1] at h2
        simp only [keysOf, List.map_cons] at h2 ⊢
        rw [h2]
      · rw [if_neg (fun hh => h1 (hx.mp hh))]
        have h2 := ih
        rw [if_neg h1] at h2
        simp only [keysOf, List.map_cons] at h2 ⊢
        rw [h2]
        simp

theorem keysNodup_addToBucket [DecidableEq κ] (k : κ) (v : α)
    (m : List (κ × List α)) (h : (keysOf m).Nodup) :
    (keysOf (addToBucket k v m)).Nodup := by
  rw [keysOf_addToBucket]
  split
  · exact h
  · next hk => simpa [List.nodup_append] using ⟨h, fun hmem => hk hmem⟩

theorem mem_keysOf_of_mem [DecidableEq κ] {m : List (κ × List α)} {kv : κ × List α}
    (h : kv ∈ m) : kv.1 ∈ keysOf m := List.mem_map_of_mem Prod.fst h

theorem bGet_of_mem [DecidableEq κ] {m : List (κ × List α)} {kv : κ × List α}
    (hn : (keysOf m).Nodup) (h : kv ∈ m) : bGet m kv.1 = kv.2 := by
  induction m with
  | nil => cases h
  | cons kv₀ rest ih =>
    obtain ⟨k₀, vs₀⟩ := kv₀
    have hn2 := List.nodup_cons.mp (show (k₀ :: keysOf rest).Nodup by simpa [keysOf] using hn)
    rcases List.mem_cons.mp h with h | h
    · subst h; simp [bGet]
    · have hk : k₀ ≠ kv.1 := fun he => hn2.1 (he ▸ mem_keysOf_of_mem h)
      simp [bGet, hk, ih hn2.2 h]

theorem mem_of_mem_keysOf [DecidableEq κ] {m : List (κ × List α)} {k : κ}
    (h : k ∈ keysOf m) : (k, bGet m k) ∈ m := by
  induction m with
  | nil => simp [keysOf] at h
  | cons kv₀ rest ih =>
    obtain ⟨k₀, vs₀⟩ := kv₀
    by_cases he : k₀ = k
    · subst he; simp [bGet]
    · simp [keysOf, Ne.symm he] at h
      simp [bGet, he]
      exact Or.inr (by simpa [keysOf] using ih (by simpa [keysOf] using h))

theorem bGet_pushAll [DecidableEq κ] (key : α → κ) (proj : α → β)
    (l : List α) (m : List (κ × List β)) (k : κ) :
    bGet (pushAll key proj m l) k =
      bGet m k ++ (l.filter (fun a => decide (key a = k))).map proj := by
  induction l generalizing m with
  | nil => simp [pushAll]
  | cons a l ih =>
    have : pushAll key proj m (a :: l) =
        pushAll key proj (addToBucket (key a) (proj a) m) l := rfl
    rw [this, ih]
    by_cases h : key a = k
    · simp [bGet_addToBucket, h]
    · simp [bGet_addToBucket, h]

theorem keysOf_pushAll_nodup [DecidableEq κ] (key : α → κ) (proj : α → β)
    (l : List α) (m : List (κ × List β)) (h : (keysOf m).Nodup) :
    (keysOf (pushAll key proj m l)).Nodup := by
  induction l generalizing m with
  | nil => exact h
  | cons a l ih => exact ih _ (keysNodup_addToBucket _ _ _ h)

theorem mem_keysOf_pushAll [DecidableEq κ] (key : α → κ) (proj : α → β)
    (l : List α) (m : List (κ × List β)) (k : κ) :
    k ∈ keysOf (pushAll key proj m l) ↔ k ∈ keysOf m ∨ k ∈ l.map key := by
  induction l generalizing m with
  | nil => simp [pushAll]
  | cons a l ih =>
    have : pushAll key proj m (a :: l) =
        pushAll key proj (addToBucket (key a) (proj a) m) l := rfl
    rw [this, ih]
    constructor
    · rintro (h | h)
      · rw [keysOf_addToBucket] at h
        split at h
        · exact Or.inl h
        · rcases List.mem_append.mp h with h | h
          · exact Or.inl h
          · have hk : k = key a := by simpa using h
            exact Or.inr (by simp [hk])
      · exact Or.inr (by simp [h])
    · rintro (h | h)
      · refine Or.inl ?_
        rw [keysOf_addToBucket]
        split
        · exact h
        · exact List.mem_append_left _ h
      · rcases List.mem_cons.mp (show k ∈ key a :: l.map key by simpa using h) with h | h
        · refine Or.inl ?_
          rw [keysOf_addToBucket]
          subst h
          split
          · next hm => exact hm
          · exact List.mem_append_right _ (by simp)
        · exact Or.inr h

theorem detStep_eq (H : List Nat → Nat) (fs : DFs) (opts : DupOpts)
    (st : DetState) (p : String) :
    detStep H fs opts st p =
      match recOf H fs opts p with
      | none => { st with processed := st.processed + 1 }
      | some r =>
        if opts.compareSize then
          { st with fileHashes := addToBucket r.size r st.fileHashes,
                    processed := st.processed + 1 }
        else
          { st with potentialDuplicates :=
                      addToBucket r.hash r.toOut st.potentialDuplicates,
                    processed := st.processed + 1 } := by
  unfold detStep recOf eligible
  cases hc : dfsLookup fs p with
  | none => rfl
  | some c =>
    by_cases h1 : c.isDir = true
    · simp [h1]
    · by_cases h2 : opts.minSize ≠ 0 ∧ c.content.length < opts.minSize
      · simp [h1, h2]
      · by_cases h3 : opts.maxSize ≠ 0 ∧ opts.maxSize < c.content.length
        · simp [h1, h2, h3]
        · simp [h1, h2, h3]

theorem detLoop_processed (H : List Nat → Nat) (fs : DFs) (opts : DupOpts)
    (paths : List String) (st : DetState) :
    (paths.foldl (detStep H fs opts) st).processed = st.processed + paths.length := by
  induction paths generalizing st with
  | nil => simp
  | cons p ps ih =>
    rw [List.foldl_cons, ih]
    have h : (detStep H fs opts st p).processed = st.processed + 1 := by
      rw [detStep_eq]
      cases recOf H fs opts p with
      | none => rfl
      | some r => by_cases hcs : opts.compareSize = true <;> simp [hcs]
    rw [h]
    simp only [List.length_cons]
    omega

theorem detLoop_fileHashes (H : List Nat → Nat) (fs : DFs) (opts : DupOpts)
    (paths : List String) (st : DetState) (hcs : opts.compareSize = true) :
    (paths.foldl (detStep H fs opts) st).fileHashes =
      pushAll (·.size) id st.fileHashes (procRecs H fs opts paths) := by
  induction paths generalizing st with
  | nil => simp [procRecs, pushAll]
  | cons p ps ih =>
    rw [List.foldl_cons, ih]
    cases hr : recOf H fs opts p with
    | none =>
      have h : (detStep H fs opts st p).fileHashes = st.fileHashes := by
        rw [detStep_eq, hr]
      rw [h]; simp [procRecs, List.filterMap_cons, hr]
    | some r =>
      have h : (detStep H fs opts st p).fileHashes =
          addToBucket r.size r st.fileHashes := by
        rw [detStep_eq, hr]; simp [hcs]
      rw [h]; simp [procRecs, List.filterMap_cons, hr, pushAll]

theorem detLoop_pd_of_compareSize (H : List Nat → Nat) (fs : DFs) (opts : DupOpts)
    (paths : List String) (st : DetState) (hcs : opts.compareSize = true) :
    (paths.foldl (detStep H fs opts) st).potentialDuplicates =
      st.potentialDuplicates := by
  induction paths generalizing st with
  | nil => rfl
  | cons p ps ih =>
    rw [List.foldl_cons, ih]
    rw [detStep_eq]
    cases recOf H fs opts p with
    | none => rfl
    | some r => simp [hcs]

theorem detLoop_pd_of_noCompare (H : List Nat → Nat) (fs : DFs) (opts : DupOpts)
    (paths : List String) (st : DetState) (hcs : opts.compareSize = false) :
    (paths.foldl (detStep H fs opts) st).potentialDuplicates =
      pushAll (·.hash) FRec.toOut st.potentialDuplicates (procRecs H fs opts paths) := by
  induction paths generalizing st with
  | nil => simp [procRecs, pushAll]
  | cons p ps ih =>
    rw [List.foldl_cons, ih]
    cases hr : recOf H fs opts p with
    | none =>
      have h : (detStep H fs opts st p).potentialDuplicates =
          st.potentialDuplicates := by
        rw [detStep_eq, hr]
      rw [h]; simp [procRecs, List.filterMap_cons, hr]
    | some r =>
      have h : (detStep H fs opts st p).potentialDuplicates =
          addToBucket r.hash r.toOut st.potentialDuplicates := by
        rw [detStep_eq, hr]; simp [hcs]
      rw [h]; simp [procRecs, List.filterMap_cons, hr, pushAll]

theorem mergeStage_pd (st : DetState) :
    (mergeStage st).potentialDuplicates =
      pushAll (·.hash) FRec.toOut st.potentialDuplicates
        (((st.fileHashes.filter (fun kv => 1 < kv.2.length)).map (·.2)).flatten) := by
  show st.fileHashes.foldl _ st.potentialDuplicates = _
  generalize st.potentialDuplicates = pd
  induction st.fileHashes generalizing pd with
  | nil => simp [pushAll]
  | cons kv rest ih =>
    by_cases h : 1 < kv.2.length
    · rw [List.foldl_cons]
      simp only [if_pos h]
      rw [ih]
      have hf : (kv :: rest).filter (fun kv => decide (1 < kv.2.length)) =
          kv :: rest.filter (fun kv => decide (1 < kv.2.length)) := by
        simp [List.filter_cons, h]
      rw [hf]
      simp only [List.map_cons, List.flatten_cons]
      rw [pushAll, pushAll, List.foldl_append]
    · rw [List.foldl_cons]
      simp only [if_neg h]
      rw [ih]
      simp [List.filter_cons, h]

/-- The group list derived from the final `potentialDuplicates` map. -/
def groupsOf (pd : List (Option Nat × List FOut)) : List DGroup :=
  pd.filterMap (fun kv =>
    if 1 < kv.2.length then some ⟨kv.1, headSize kv.2, kv.2⟩ else none)

theorem extractGroups_foldl (pd : List (Option Nat × List FOut))
    (acc : List DGroup × Nat × Nat) :
    pd.foldl (fun acc kv =>
      if 1 < kv.2.length then
        (acc.1 ++ [⟨kv.1, headSize kv.2, kv.2⟩],
         acc.2.1 + (kv.2.length - 1),
         acc.2.2 + headSize kv.2 * (kv.2.length - 1))
      else acc) acc =
      (acc.1 ++ groupsOf pd,
       acc.2.1 + ((groupsOf pd).map (fun g => g.files.length - 1)).sum,
       acc.2.2 + ((groupsOf pd).map (fun g => g.size * (g.files.length - 1))).sum) := by
  induction pd generalizing acc with
  | nil => simp [groupsOf]
  | cons kv rest ih =>
    by_cases h : 1 < kv.2.length
    · rw [List.foldl_cons]
      simp only [if_pos h]
      rw [ih]
      simp [groupsOf, List.filterMap_cons, h, Prod.ext_iff]
      constructor
      · omega
      · omega
    · rw [List.foldl_cons]
      simp only [if_neg h]
      rw [ih]
      simp [groupsOf, List.filterMap_cons, h]

theorem extractGroups_eq (pd : List (Option Nat × List FOut)) :
    extractGroups pd =
      (groupsOf pd,
       ((groupsOf pd).map (fun g => g.files.length - 1)).sum,
       ((groupsOf pd).map (fun g => g.size * (g.files.length - 1))).sum) := by
  unfold extractGroups
  rw [extractGroups_foldl]
  simp

/-- The list the hash-grouping stage consumes: with the size pre-check, the
concatenation (in key-insertion order) of the size buckets holding at least
two files; without it, every processed record. -/
def mergeInput (H : List Nat → Nat) (fs : DFs) (opts : DupOpts)
    (paths : List String) : List FRec :=
  if opts.compareSize then
    (((buildBuckets (·.size) id (procRecs H fs opts paths)).filter
        (fun kv => 1 < kv.2.length)).map (·.2)).flatten
  else procRecs H fs opts paths

/-- The final `potentialDuplicates` map of one handler run. -/
def pdFinal (H : List Nat → Nat) (fs : DFs) (opts : DupOpts)
    (paths : List String) : List (Option Nat × List FOut) :=
  let st := paths.foldl (detStep H fs opts) ⟨[], [], 0⟩
  if opts.compareSize then (mergeStage st).potentialDuplicates
  else st.potentialDuplicates

theorem pdFinal_eq (H : List Nat → Nat) (fs : DFs) (opts : DupOpts)
    (paths : List String) :
    pdFinal H fs opts paths =
      buildBuckets (·.hash) FRec.toOut (mergeInput H fs opts paths) := by
  unfold pdFinal mergeInput
  by_cases hcs : opts.compareSize = true
  · simp only [hcs, if_true, if_pos]
    rw [mergeStage_pd, detLoop_pd_of_compareSize _ _ _ _ _ hcs,
      detLoop_fileHashes _ _ _ _ _ hcs]
    rfl
  · have hcs' : opts.compareSize = false := by
      cases h : opts.compareSize
      · rfl
      · exact absurd h hcs
    simp only [hcs', if_false, Bool.false_eq_true]
    rw [detLoop_pd_of_noCompare _ _ _ _ _ hcs']
    rfl

theorem findDuplicates_eq (H : List Nat → Nat) (fs : DFs) (opts : DupOpts)
    (paths : List String) :
    findDuplicates H fs opts paths =
      { duplicateGroups :=
          (groupsOf (pdFinal H fs opts paths)).mergeSort
            (fun a b => decide (b.size * b.files.length ≤ a.size * a.files.length))
        totalDuplicates :=
          ((groupsOf (pdFinal H fs opts paths)).map (fun g => g.files.length - 1)).sum
        potentialSavings :=
          ((groupsOf (pdFinal H fs opts paths)).map
            (fun g => g.size * (g.files.length - 1))).sum
        processed := paths.length } := by
  unfold findDuplicates pdFinal
  by_cases hcs : opts.compareSize = true
  · simp only [hcs, if_true, if_pos, extractGroups_eq]
    have hp : (mergeStage (paths.foldl (detStep H fs opts) ⟨[], [], 0⟩)).processed =
        (paths.foldl (detStep H fs opts) ⟨[], [], 0⟩).processed := rfl
    simp [hp, detLoop_processed]
  · have hcs' : opts.compareSize = false := by
      cases h : opts.compareSize
      · rfl
      · exact absurd h hcs
    simp only [hcs', if_false, Bool.false_eq_true, extractGroups_eq]
    simp [detLoop_processed]

/-- Claim C4: `totalDuplicates` equals the sum of `(members − 1)` over the
returned groups, and `potentialSavings` equals the sum of the group's recorded
size times `(members − 1)`. -/
theorem findDuplicates_totals (H : List Nat → Nat) (fs : DFs) (opts : DupOpts)
    (paths : List String) :
    (findDuplicates H fs opts paths).totalDuplicates =
      ((findDuplicates H fs opts paths).duplicateGroups.map
        (fun g => g.files.length - 1)).sum ∧
    (findDuplicates H fs opts paths).potentialSavings =
      ((findDuplicates H fs opts paths).duplicateGroups.map
        (fun g => g.size * (g.files.length - 1))).sum := by
  rw [findDuplicates_eq]
  have hperm := List.mergeSort_perm (groupsOf (pdFinal H fs opts paths))
    (fun a b => decide (b.size * b.files.length ≤ a.size * a.files.length))
  constructor
  · exact ((hperm.map (fun g => g.files.length - 1)).sum_eq).symm
  · exact ((hperm.map (fun g => g.size * (g.files.length - 1))).sum_eq).symm

theorem recOf_path {H : List Nat → Nat} {fs : DFs} {opts : DupOpts} {q : String}
    {r : FRec} (h : recOf H fs opts q = some r) : r.path = q := by
  unfold recOf at h
  cases hc : dfsLookup fs q with
  | none =>
    simp only [hc] at h
    cases h
  | some c =>
    simp only [hc] at h
    by_cases he : eligible fs opts q = true
    · rw [if_pos he] at h
      cases h
      rfl
    · rw [if_neg he] at h
      cases h

theorem mem_procRecs {H : List Nat → Nat} {fs : DFs} {opts : DupOpts}
    {paths : List String} {r : FRec} (h : r ∈ procRecs H fs opts paths) :
    recOf H fs opts r.path = some r := by
  obtain ⟨q, _, hq⟩ := List.mem_filterMap.mp h
  have hpq := recOf_path hq
  rw [← hpq] at hq
  exact hq

theorem procRecs_mem {H : List Nat → Nat} {fs : DFs} {opts : DupOpts}
    {paths : List String} {p : String} {r : FRec} (hp : p ∈ paths)
    (hr : recOf H fs opts p = some r) : r ∈ procRecs H fs opts paths :=
  List.mem_filterMap.mpr ⟨p, hp, hr⟩

theorem two_mem_one_lt_length {a b : α} {l : List α} (ha : a ∈ l) (hb : b ∈ l)
    (hab : a ≠ b) : 1 < l.length := by
  match l with
  | [] => cases ha
  | [x] =>
    rw [List.mem_singleton] at ha hb
    exact absurd (ha.trans hb.symm) hab
  | x :: y :: xs => simp [List.length_cons]

theorem mergeInput_sub {H : List Nat → Nat} {fs : DFs} {opts : DupOpts}
    {paths : List String} {r : FRec} (h : r ∈ mergeInput H fs opts paths) :
    r ∈ procRecs H fs opts paths := by
  unfold mergeInput at h
  by_cases hcs : opts.compareSize = true
  · rw [if_pos hcs] at h
    obtain ⟨vs, hvs, hr⟩ := List.mem_flatten.mp h
    obtain ⟨kv, hkv, hsnd⟩ := List.mem_map.mp hvs
    have hmem := List.mem_of_mem_filter hkv
    have hnd : (keysOf (buildBuckets (fun x => x.size) (id (α := FRec))
        (procRecs H fs opts paths))).Nodup := by
      rw [buildBuckets_eq_pushAll]
      exact keysOf_pushAll_nodup _ _ _ _ (by simp [keysOf])
    have hget := bGet_of_mem hnd hmem
    rw [buildBuckets_eq_pushAll, bGet_pushAll] at hget
    rw [← hsnd, ← hget] at hr
    simp only [bGet, List.map_id] at hr
    exact List.mem_of_mem_filter hr
  · rw [if_neg hcs] at h
    exact h

theorem mergeInput_of_sizePeers {H : List Nat → Nat} {fs : DFs} {opts : DupOpts}
    {paths : List String} {r : FRec} (hr : r ∈ procRecs H fs opts paths)
    (hpeers : opts.compareSize = true →
      1 < ((procRecs H fs opts paths).filter (fun x => decide (x.size = r.size))).length) :
    r ∈ mergeInput H fs opts paths := by
  unfold mergeInput
  by_cases hcs : opts.compareSize = true
  · rw [if_pos hcs]
    set S := procRecs H fs opts paths with hS
    have hkey : r.size ∈ keysOf (buildBuckets (fun x => x.size) (id (α := FRec)) S) := by
      rw [buildBuckets_eq_pushAll]
      exact (mem_keysOf_pushAll _ _ _ _ _).mpr
        (Or.inr (List.mem_map.mpr ⟨r, hr, rfl⟩))
    have hment := mem_of_mem_keysOf hkey
    have hbg : bGet (buildBuckets (fun x => x.size) (id (α := FRec)) S) r.size =
        S.filter (fun x => decide (x.size = r.size)) := by
      rw [buildBuckets_eq_pushAll, bGet_pushAll]
      simp [bGet]
    refine List.mem_flatten.mpr ⟨S.filter (fun x => decide (x.size = r.size)), ?_, ?_⟩
    · refine List.mem_map.mpr ⟨(r.size, S.filter (fun x => decide (x.size = r.size))), ?_, rfl⟩
      refine List.mem_filter.mpr ⟨?_, ?_⟩
      · rw [← hbg]; exact hment
      · simpa using hpeers hcs
    · exact List.mem_filter.mpr ⟨hr, by simp⟩
  · rw [if_neg hcs]
    exact hr

theorem pdFinal_nodupKeys (H : List Nat → Nat) (fs : DFs) (opts : DupOpts)
    (paths : List String) : (keysOf (pdFinal H fs opts paths)).Nodup := by
  rw [pdFinal_eq, buildBuckets_eq_pushAll]
  exact keysOf_pushAll_nodup _ _ _ _ (by simp [keysOf])

theorem pdFinal_bucket (H : List Nat → Nat) (fs : DFs) (opts : DupOpts)
    (paths : List String) {kv : Option Nat × List FOut}
    (h : kv ∈ pdFinal H fs opts paths) :
    kv.2 = ((mergeInput H fs opts paths).filter
      (fun x => decide (x.hash = kv.1))).map FRec.toOut := by
  have := bGet_of_mem (pdFinal_nodupKeys H fs opts paths) h
  rw [pdFinal_eq, buildBuckets_eq_pushAll, bGet_pushAll] at this
  simpa [bGet] using this.symm

theorem mem_groupsOf {pd : List (Option Nat × List FOut)} {g : DGroup}
    (h : g ∈ groupsOf pd) :
    ∃ kv ∈ pd, 1 < kv.2.length ∧ g = ⟨kv.1, headSize kv.2, kv.2⟩ := by
  obtain ⟨kv, hkv, hg⟩ := List.mem_filterMap.mp h
  by_cases hl : 1 < kv.2.length
  · rw [if_pos hl] at hg
    exact ⟨kv, hkv, hl, (Option.some_inj.mp hg).symm⟩
  · rw [if_neg hl] at hg
    cases hg

theorem groupsOf_mem {pd : List (Option Nat × List FOut)}
    {kv : Option Nat × List FOut} (hkv : kv ∈ pd) (hl : 1 < kv.2.length) :
    (⟨kv.1, headSize kv.2, kv.2⟩ : DGroup) ∈ groupsOf pd :=
  List.mem_filterMap.mpr ⟨kv, hkv, by rw [if_pos hl]⟩

/-- The counting core of the exactly-one-group property: in a bucket map with
distinct keys, if satisfying `P` forces a group's key to be `h`, and the
bucket at `h` qualifies and satisfies `P`, then exactly one extracted group
satisfies `P`. -/
theorem countP_groupsOf_eq_one {pd : List (Option Nat × List FOut)}
    {P : DGroup → Bool} {h : Option Nat} {vsh : List FOut}
    (hnd : (keysOf pd).Nodup)
    (hall : ∀ kv ∈ pd, P ⟨kv.1, headSize kv.2, kv.2⟩ = true → kv.1 = h)
    (hmem : (h, vsh) ∈ pd) (hlen : 1 < vsh.length)
    (hP : P ⟨h, headSize vsh, vsh⟩ = true) :
    (groupsOf pd).countP P = 1 := by
  induction pd with
  | nil => cases hmem
  | cons kv rest ih =>
    have hnd2 := List.nodup_cons.mp (show (kv.1 :: keysOf rest).Nodup by
      simpa [keysOf] using hnd)
    by_cases hk : kv.1 = h
    · have hkv : kv = (h, vsh) := by
        rcases List.mem_cons.mp hmem with he | he
        · exact he.symm
        · exact absurd (hk ▸ mem_keysOf_of_mem he) hnd2.1
      subst hkv
      have hzero : (groupsOf rest).countP P = 0 := by
        rw [List.countP_eq_zero]
        intro g hg hPg
        obtain ⟨kv', hkv', hl', hgeq⟩ := mem_groupsOf hg
        rw [hgeq] at hPg
        have hk' := hall kv' (List.mem_cons_of_mem _ hkv') hPg
        exact hnd2.1 (by simpa [hk'] using mem_keysOf_of_mem hkv')
      simp only [groupsOf, List.filterMap_cons]
      rw [if_pos hlen]
      rw [List.countP_cons_of_pos _ _ hP]
      simp only [groupsOf] at hzero
      rw [hzero]
    · have hmem' : (h, vsh) ∈ rest := by
        rcases List.mem_cons.mp hmem with he | he
        · exact absurd (show kv.1 = h by rw [← he]) hk
        · exact he
      have hPf : ¬P ⟨kv.1, headSize kv.2, kv.2⟩ = true :=
        fun hc => hk (hall kv (List.mem_cons_self _ _) hc)
      have hcount : (groupsOf (kv :: rest)).countP P = (groupsOf rest).countP P := by
        simp only [groupsOf, List.filterMap_cons]
        by_cases hl : 1 < kv.2.length
        · rw [if_pos hl]
          exact List.countP_cons_of_neg _ _ hPf
        · rw [if_neg hl]
      rw [hcount]
      exact ih hnd2.2 (fun kv' hm => hall kv' (List.mem_cons_of_mem _ hm)) hmem'

theorem perm_all_eq {l₁ l₂ : List α} (hp : l₁.Perm l₂) (p : α → Bool) :
    l₁.all p = l₂.all p := by
  have hiff : (l₁.all p = true) ↔ (l₂.all p = true) := by
    simp only [List.all_eq_true]
    exact ⟨fun H a ha => H a (hp.mem_iff.mpr ha), fun H a ha => H a (hp.mem_iff.mp ha)⟩
  cases h₁ : l₁.all p <;> cases h₂ : l₂.all p
  · rfl
  · exact absurd (hiff.mpr h₂) (by simp [h₁])
  · exact absurd (hiff.mp h₁) (by simp [h₂])
  · rfl

theorem recOf_eq_none {H : List Nat → Nat} {fs : DFs} {opts : DupOpts} {p : String}
    (h : dfsLookup fs p = none ∨ ∃ c, dfsLookup fs p = some c ∧ c.isDir = true) :
    recOf H fs opts p = none := by
  unfold recOf
  rcases h with h | ⟨c, hc, hd⟩
  · simp [h]
  · have he : eligible fs opts p = false := by
      unfold eligible
      simp [hc, hd]
    simp [hc, he]

/-- Claim C3, amended: Every returned duplicate group has at least two members
and records `files[0].size` as its size; two distinct input files with equal
byte size and equal computed hash appear together in exactly one returned
group.  (The source keys `potentialDuplicates` by hash alone, so a member's
own size need not equal the group's recorded size — see the counterexample.) -/
theorem findDuplicates_groups_sound (H : List Nat → Nat) (fs : DFs) (opts : DupOpts)
    (paths : List String) (p₁ p₂ : String) (r₁ r₂ : FRec)
    (hp₁ : p₁ ∈ paths) (hp₂ : p₂ ∈ paths) (hne : p₁ ≠ p₂)
    (hr₁ : recOf H fs opts p₁ = some r₁) (hr₂ : recOf H fs opts p₂ = some r₂)
    (hsize : r₁.size = r₂.size) (hhash : r₁.hash = r₂.hash) :
    (∀ g ∈ (findDuplicates H fs opts paths).duplicateGroups, 2 ≤ g.files.length) ∧
    (∀ g ∈ (findDuplicates H fs opts paths).duplicateGroups,
      ∃ v vs, g.files = v :: vs ∧ g.size = v.size) ∧
    ((findDuplicates H fs opts paths).duplicateGroups.countP
      (fun g => g.files.any (fun f => f.path = p₁) &&
                g.files.any (fun f => f.path = p₂))) = 1 := by
  have hpath₁ := recOf_path hr₁
  have hpath₂ := recOf_path hr₂
  have hgroups : (findDuplicates H fs opts paths).duplicateGroups =
      (groupsOf (pdFinal H fs opts paths)).mergeSort
        (fun a b => decide (b.size * b.files.length ≤ a.size * a.files.length)) := by
    rw [findDuplicates_eq]
  have hperm := List.mergeSort_perm (groupsOf (pdFinal H fs opts paths))
    (fun a b => decide (b.size * b.files.length ≤ a.size * a.files.length))
  refine ⟨?_, ?_, ?_⟩
  · intro g hg
    rw [hgroups] at hg
    obtain ⟨kv, _, hl, hge⟩ := mem_groupsOf (hperm.mem_iff.mp hg)
    rw [hge]
    exact hl
  · intro g hg
    rw [hgroups] at hg
    obtain ⟨kv, _, hl, hge⟩ := mem_groupsOf (hperm.mem_iff.mp hg)
    match hv : kv.2 with
    | [] => rw [hv] at hl; cases hl
    | v :: vs =>
      refine ⟨v, vs, ?_, ?_⟩
      · rw [hge, hv]
      · rw [hge, hv]
        rfl
  · rw [hgroups, hperm.countP_eq]
    -- both records survive into the merge stage
    have hS₁ : r₁ ∈ procRecs H fs opts paths := procRecs_mem hp₁ hr₁
    have hS₂ : r₂ ∈ procRecs H fs opts paths := procRecs_mem hp₂ hr₂
    have hrne : r₁ ≠ r₂ := fun he => hne (by rw [← hpath₁, ← hpath₂, he])
    have hpeers₁ : opts.compareSize = true →
        1 < ((procRecs H fs opts paths).filter
          (fun x => decide (x.size = r₁.size))).length := by
      intro _
      refine two_mem_one_lt_length (a := r₁) (b := r₂) ?_ ?_ hrne
      · exact List.mem_filter.mpr ⟨hS₁, by simp⟩
      · exact List.mem_filter.mpr ⟨hS₂, by simp [hsize]⟩
    have hpeers₂ : opts.compareSize = true →
        1 < ((procRecs H fs opts paths).filter
          (fun x => decide (x.size = r₂.size))).length := by
      rw [← hsize]
      exact hpeers₁
    have hMI₁ : r₁ ∈ mergeInput H fs opts paths := mergeInput_of_sizePeers hS₁ hpeers₁
    have hMI₂ : r₂ ∈ mergeInput H fs opts paths := mergeInput_of_sizePeers hS₂ hpeers₂
    -- the bucket at the shared hash
    have hkey : r₁.hash ∈ keysOf (pdFinal H fs opts paths) := by
      rw [pdFinal_eq, buildBuckets_eq_pushAll]
      exact (mem_keysOf_pushAll _ _ _ _ _).mpr
        (Or.inr (List.mem_map.mpr ⟨r₁, hMI₁, rfl⟩))
    have hment := mem_of_mem_keysOf hkey
    have hbd := pdFinal_bucket H fs opts paths hment
    simp only at hbd
    have hin₁ : r₁.toOut ∈ bGet (pdFinal H fs opts paths) r₁.hash := by
      rw [hbd]
      exact List.mem_map.mpr ⟨r₁, List.mem_filter.mpr ⟨hMI₁, by simp⟩, rfl⟩
    have hin₂ : r₂.toOut ∈ bGet (pdFinal H fs opts paths) r₁.hash := by
      rw [hbd]
      exact List.mem_map.mpr ⟨r₂, List.mem_filter.mpr ⟨hMI₂, by simp [hhash]⟩, rfl⟩
    have houtne : r₁.toOut ≠ r₂.toOut := by
      intro he
      exact hne (by rw [← hpath₁, ← hpath₂]; exact congrArg FOut.path he)
    have hlen : 1 < (bGet (pdFinal H fs opts paths) r₁.hash).length :=
      two_mem_one_lt_length hin₁ hin₂ houtne
    -- any group holding a record with path p₁ has the shared hash as key
    have hall : ∀ kv ∈ pdFinal H fs opts paths,
        ((fun g => g.files.any (fun f => f.path = p₁) &&
          g.files.any (fun f => f.path = p₂))
          (⟨kv.1, headSize kv.2, kv.2⟩ : DGroup)) = true → kv.1 = r₁.hash := by
      intro kv hkv hP
      have hany : kv.2.any (fun f => f.path = p₁) = true := by
        have hP' := hP
        simp only [Bool.and_eq_true] at hP'
        simpa using hP'.1
      obtain ⟨f, hf, hfp⟩ := List.any_eq_true.mp hany
      have hfpath : f.path = p₁ := by simpa using hfp
      have hkc := pdFinal_bucket H fs opts paths hkv
      rw [hkc] at hf
      obtain ⟨r, hrMI, hrout⟩ := List.mem_map.mp hf
      have hrfil := List.mem_of_mem_filter hrMI
      have hrhash : r.hash = kv.1 := by
        have := (List.mem_filter.mp hrMI).2
        simpa using this
      have hrS := mergeInput_sub hrfil
      have hrrec := mem_procRecs hrS
      have hrpath : r.path = p₁ := by
        rw [← hfpath, ← hrout]
        rfl
      rw [hrpath] at hrrec
      rw [hr₁] at hrrec
      have : r = r₁ := by
        cases hrrec
        rfl
      rw [← hrhash, this]
    have hPtrue : ((fun g => g.files.any (fun f => f.path = p₁) &&
        g.files.any (fun f => f.path = p₂))
        (⟨r₁.hash, headSize (bGet (pdFinal H fs opts paths) r₁.hash),
          bGet (pdFinal H fs opts paths) r₁.hash⟩ : DGroup)) = true := by
      simp only [Bool.and_eq_true]
      refine ⟨?_, ?_⟩
      · exact List.any_eq_true.mpr ⟨r₁.toOut, hin₁, by simp [FRec.toOut, hpath₁]⟩
      · exact List.any_eq_true.mpr ⟨r₂.toOut, hin₂, by simp [FRec.toOut, hpath₂]⟩
    exact countP_groupsOf_eq_one (pdFinal_nodupKeys H fs opts paths) hall hment hlen
      hPtrue

/-- Two identical 2-byte files: a concrete duplicate pair. -/
def dfsPair : DFs := [("a", ⟨false, [1, 2], true⟩), ("b", ⟨false, [1, 2], true⟩)]

/-- Witness for C3: On two identical files the detector returns exactly one
group containing both. -/
theorem findDuplicates_groups_sound_witness :
    ((findDuplicates List.sum dfsPair {} ["a", "b"]).duplicateGroups.countP
      (fun g => g.files.any (fun f => f.path = "a") &&
                g.files.any (fun f => f.path = "b"))) = 1 :=
  (findDuplicates_groups_sound List.sum dfsPair {} ["a", "b"] "a" "b"
    ⟨"a", some 3, 2, "a", ""⟩ ⟨"b", some 3, 2, "b", ""⟩
    (by decide) (by decide) (by decide) (by decide) (by decide)
    (by decide) (by decide)).2.2

/-- Sampled hashing with 1-byte windows: `a`,`b` are identical 4-byte files,
`c`,`d` identical 5-byte files, and all four expose the same head/middle/tail
windows `[7,7,7]`, so any digest of the windows collides across the two
sizes. -/
def dfsSizes : DFs :=
  [("a", ⟨false, [7, 7, 7, 7], true⟩), ("b", ⟨false, [7, 7, 7, 7], true⟩),
   ("c", ⟨false, [7, 7, 7, 7, 7], true⟩), ("d", ⟨false, [7, 7, 7, 7, 7], true⟩)]

/-- Counterexample for C3: `potentialDuplicates` is keyed by hash only, so
the two size buckets merge into one group whose recorded size (4, from
`files[0]`) differs from the size of its 5-byte members: the claim "every
member's byte size equals the group's recorded size" is false. -/
theorem findDuplicates_member_size_mismatch :
    ((findDuplicates List.sum dfsSizes ⟨false, 1, true, 0, 0⟩
      ["a", "b", "c", "d"]).duplicateGroups.all
        (fun g => g.files.all (fun f => f.size = g.size))) = false := by
  rw [findDuplicates_eq]
  show ((groupsOf (pdFinal List.sum dfsSizes ⟨false, 1, true, 0, 0⟩
      ["a", "b", "c", "d"])).mergeSort _).all _ = false
  rw [perm_all_eq (List.mergeSort_perm _ _)]
  decide

/-- Claim C7, amended: Every input path is counted as processed (one per-file
failure never aborts the batch, so progress reaches the total), and a path
that has vanished or is a directory contributes to no returned group.  (A
file whose hash computation fails is NOT excluded from grouping — its `null`
hash participates as an ordinary key; see the counterexample.) -/
theorem findDuplicates_skips_faithfully (H : List Nat → Nat) (fs : DFs)
    (opts : DupOpts) (paths : List String) :
    (findDuplicates H fs opts paths).processed = paths.length ∧
    (∀ p : String,
      (dfsLookup fs p = none ∨ ∃ c, dfsLookup fs p = some c ∧ c.isDir = true) →
      ∀ g ∈ (findDuplicates H fs opts paths).duplicateGroups,
        ∀ f ∈ g.files, f.path ≠ p) := by
  constructor
  · rw [findDuplicates_eq]
  · intro p hp g hg f hf hfp
    have hgroups : (findDuplicates H fs opts paths).duplicateGroups =
        (groupsOf (pdFinal H fs opts paths)).mergeSort
          (fun a b => decide (b.size * b.files.length ≤ a.size * a.files.length)) := by
      rw [findDuplicates_eq]
    rw [hgroups] at hg
    obtain ⟨kv, hkv, hl, hge⟩ :=
      mem_groupsOf ((List.mergeSort_perm _ _).mem_iff.mp hg)
    have hkc := pdFinal_bucket H fs opts paths hkv
    have hfk : f ∈ kv.2 := by
      rw [hge] at hf
      exact hf
    rw [hkc] at hfk
    obtain ⟨r, hrMI, hrout⟩ := List.mem_map.mp hfk
    have hrS := mergeInput_sub (List.mem_of_mem_filter hrMI)
    have hrrec := mem_procRecs hrS
    have hrp : r.path = p := by
      rw [← hfp, ← hrout]
      rfl
    rw [hrp] at hrrec
    rw [recOf_eq_none hp] at hrrec
    cases hrrec

/-- A directory plus two identical files: concrete input for the amended C7. -/
def dfsDirMix : DFs :=
  [("d", ⟨true, [], true⟩), ("x", ⟨false, [1], true⟩), ("y", ⟨false, [1], true⟩)]

/-- Witness for C7: All three paths (a directory among them) are counted as
processed, and the directory appears in no returned group. -/
theorem findDuplicates_skips_faithfully_witness :
    (findDuplicates (fun _ => 0) dfsDirMix {} ["d", "x", "y"]).processed = 3 ∧
    ((findDuplicates (fun _ => 0) dfsDirMix {} ["d", "x", "y"]).duplicateGroups.all
      (fun g => g.files.all (fun f => !(f.path = "d")))) = true := by
  have h := findDuplicates_skips_faithfully (fun _ => 0) dfsDirMix {} ["d", "x", "y"]
  refine ⟨by simpa using h.1, ?_⟩
  rw [List.all_eq_true]
  intro g hg
  rw [List.all_eq_true]
  intro f hf
  have hne := h.2 "d" (Or.inr ⟨⟨true, [], true⟩, by decide, rfl⟩) g hg f hf
  simpa using hne

/-- Two same-size files that both fail to read (hash `null`). -/
def dfsUnreadable : DFs :=
  [("x", ⟨false, [1, 2, 3], false⟩), ("y", ⟨false, [9, 9, 9], false⟩)]

/-- Counterexample for C7: A file whose hash computation fails is not
skipped from grouping: two same-size unreadable files are grouped under the
`null` hash key and returned as a duplicate group, so "contributes to no
returned duplicate group" is false for hash failures. -/
theorem findDuplicates_nullHash_grouped :
    calculateFileHash (fun _ => 0) ⟨false, [1, 2, 3], false⟩ none = none ∧
    ((findDuplicates (fun _ => 0) dfsUnreadable {} ["x", "y"]).duplicateGroups.all
      (fun g => g.files.all (fun f => !(f.path = "x")))) = false := by
  refine ⟨by decide, ?_⟩
  rw [findDuplicates_eq]
  show ((groupsOf (pdFinal (fun _ => 0) dfsUnreadable {} ["x", "y"])).mergeSort _).all _
    = false
  rw [perm_all_eq (List.mergeSort_perm _ _)]
  decide

/-! ## Directory scanner -/

/-- Metadata `stat` reports for a file (times in milliseconds since epoch). -/
structure FileInfo where
  name : String
  size : Nat
  atimeMs : Int
  mtimeMs : Int
  btimeMs : Int
  deriving Repr, DecidableEq

/-- A directory tree as the scanner observes it through `readdir`/`stat`. -/
inductive FsEntry where
  | file (info : FileInfo)
  | dir (name : String) (entries : List FsEntry)
  deriving Repr

def entryName : FsEntry → String
  | .file i => i.name
  | .dir n _ => n

/-- The record `scanDirectory` collects for each surviving file. -/
structure FileData where
  path : String
  name : String
  size : Nat
  accessed : Int
  modified : Int
  created : Int
  extension : String
  deriving Repr, DecidableEq

/-- The raw options object the renderer sends to the `scan-directory` handler.
A numeric 0 models both an explicit 0 and an absent field (JavaScript `||`
sees both as falsy). -/
structure RawScanConfig where
  maxDepth : Nat := 0
  ignoreDotFiles : Bool := true
  ignoreSizeAbove : Nat := 0
  includeHiddenFiles : Bool := false
  scanSizeThreshold : Nat := 0
  scanAgeThreshold : Nat := 0
  deriving Repr, DecidableEq

/-- The resolved configuration (all sizes in bytes, age in days). -/
structure ScanConfig where
  maxDepth : Nat
  ignoreDotFiles : Bool
  ignoreSizeAbove : Nat
  includeHiddenFiles : Bool
  scanSizeThreshold : Nat
  scanAgeThreshold : Nat
  deriving Repr, DecidableEq

/-- Default resolution of the `scan-directory` handler:
`maxDepth || 10`, `ignoreDotFiles !== false`, `(ignoreSizeAbove || 1024) *
1024 * 1024`, `!!includeHiddenFiles`, `(scanSizeThreshold || 100) * 1024 *
1024`, `scanAgeThreshold || 180`. -/
def resolveScanConfig (r : RawScanConfig) : ScanConfig :=
  { maxDepth := if r.maxDepth = 0 then 10 else r.maxDepth
    ignoreDotFiles := r.ignoreDotFiles
    ignoreSizeAbove := (if r.ignoreSizeAbove = 0 then 1024 else r.ignoreSizeAbove) *
      1024 * 1024
    includeHiddenFiles := r.includeHiddenFiles
    scanSizeThreshold := (if r.scanSizeThreshold = 0 then 100 else r.scanSizeThreshold) *
      1024 * 1024
    scanAgeThreshold := if r.scanAgeThreshold = 0 then 180 else r.scanAgeThreshold }

def strStarts (s pre : String) : Bool := List.isPrefixOf pre.data s.data

/-- The deny-list check both `scanDirectory` (directories only) and
`countFiles` (all entries) apply to an entry path. -/
def sysExcluded (p : String) : Bool :=
  strContains p "node_modules" || strContains p ".git" ||
  strStarts p "/System" || strStarts p "/Library/System"

/-- Scanner loop state: the pending-directory queue (shared with the entry
pass, which pushes onto it), collected file records, the progress counter and
the processed-counts at which a progress report was sent. -/
structure ScanAcc where
  queue : List (String × List FsEntry)
  files : List FileData
  processed : Nat
  reports : List Nat
  deriving Repr

/-- The record `scanDirectory` builds for a surviving file (`fileData`). -/
def mkFileData (dirPath : String) (i : FileInfo) : FileData :=
  { path := pathJoin dirPath i.name, name := i.name, size := i.size,
    accessed := i.atimeMs, modified := i.mtimeMs, created := i.btimeMs,
    extension := strLowerExt (extname i.name) }

/-- The `for (const entry of entries)` body of `scanDirectory`: dot-file
filter, then directories pass the deny-list and are enqueued, files pass the
size limit (`ignoreSizeAbove > 0 && size > ignoreSizeAbove` skips) and are
collected; the progress counter bumps per collected file and a report is
recorded at every 10th file. -/
def procEntries (cfg : ScanConfig) (dirPath : String) :
    List FsEntry → ScanAcc → ScanAcc
  | [], acc => acc
  | .dir nm children :: rest, acc =>
    if cfg.ignoreDotFiles && strStarts nm "." && !cfg.includeHiddenFiles then
      procEntries cfg dirPath rest acc
    else if sysExcluded (pathJoin dirPath nm) then
      procEntries cfg dirPath rest acc
    else
      procEntries cfg dirPath rest
        ⟨acc.queue ++ [(pathJoin dirPath nm, children)], acc.files,
          acc.processed, acc.reports⟩
  | .file i :: rest, acc =>
    if cfg.ignoreDotFiles && strStarts i.name "." && !cfg.includeHiddenFiles then
      procEntries cfg dirPath rest acc
    else if 0 < cfg.ignoreSizeAbove ∧ cfg.ignoreSizeAbove < i.size then
      procEntries cfg dirPath rest acc
    else
      procEntries cfg dirPath rest
        ⟨acc.queue, acc.files ++ [mkFileData dirPath i], acc.processed + 1,
          if (acc.processed + 1) % 10 = 0 then acc.reports ++ [acc.processed + 1]
          else acc.reports⟩

/-- The `while (pendingDirectories.length > 0 && currentDepth <=
config.maxDepth)` loop of `scanDirectory`: pop a directory; a path already in
the visited set is skipped without touching the depth counter; otherwise its
entries are processed and the depth counter increments once for this dequeued
directory.  (The `scan-batch` flushes partition `files` into events; the
claims quantify over all emitted records, so the model keeps the full
sequence.) -/
def scanLoop (cfg : ScanConfig) (queue : List (String × List FsEntry))
    (visited : List String) (depth : Nat) (files : List FileData)
    (processed : Nat) (reports : List Nat) :
    List FileData × Nat × List Nat :=
  match queue with
  | [] => (files, processed, reports)
  | (dirPath, entries) :: rest =>
    if cfg.maxDepth < depth then (files, processed, reports)
    else if dirPath ∈ visited then
      scanLoop cfg rest visited depth files processed reports
    else
      let acc := procEntries cfg dirPath entries ⟨rest, files, processed, reports⟩
      scanLoop cfg acc.queue (dirPath :: visited) (depth + 1) acc.files
        acc.processed acc.reports
  termination_by (cfg.maxDepth + 1 - depth, queue.length)
  decreasing_by
    · apply Prod.Lex.right
      simp
    · apply Prod.Lex.left
      omega

/-- Model of `scanDirectory(directoryPath, progressReporter, config)` on a modelled
tree rooted at `rootPath`: returns the emitted file records, the final
progress counter, and the report ticks. -/
def scanDirectory (cfg : ScanConfig) (rootPath : String)
    (rootEntries : List FsEntry) : List FileData × Nat × List Nat :=
  scanLoop cfg [(rootPath, rootEntries)] [] 0 [] 0 []

/-- Model of `countFiles`: the pre-pass estimate.  Every entry whose path matches the
deny-list is skipped (files included!); a directory one level past `maxDepth`
is estimated as 10 files; other files count 1. -/
def countFilesList (maxDepth curDepth : Nat) (dirPath : String) :
    List FsEntry → Nat
  | [] => 0
  | e :: rest =>
    (if sysExcluded (pathJoin dirPath (entryName e)) then 0
     else
       match e with
       | .file _ => 1
       | .dir nm children =>
         if maxDepth < curDepth + 1 then 10
         else countFilesList maxDepth (curDepth + 1) (pathJoin dirPath nm) children) +
    countFilesList maxDepth curDepth dirPath rest

/-- Wrapper `countFiles(directoryPath, config.maxDepth)`; the entry check
`currentDepth > maxDepth` is vacuous at the root (`currentDepth = 0`). -/
def countFiles (maxDepth : Nat) (rootPath : String)
    (rootEntries : List FsEntry) : Nat :=
  countFilesList maxDepth 0 rootPath rootEntries

/-- Model of `Math.round((processed / total) * 100)` when `total > 0`, else 0: the
handler's percentage.  Modelled over the rationals as
`⌊(200·p + t) / (2·t)⌋`, the exact value of rounding `100·p/t` half away from
zero for non-negative arguments. -/
def pct (p t : Nat) : Nat := if 0 < t then (200 * p + t) / (2 * t) else 0

/-- The `(processed, total)` pairs of every `scan-progress` event one
`scan-directory` invocation sends: the initial report after the `countFiles`
estimate, one report per 10 collected files, and the final report that sets
`processedFiles = totalFiles`. -/
def scanReports (raw : RawScanConfig) (rootPath : String)
    (rootEntries : List FsEntry) : List (Nat × Nat) :=
  let cfg := resolveScanConfig raw
  let total := countFiles cfg.maxDepth rootPath rootEntries
  let res := scanDirectory cfg rootPath rootEntries
  ((0, total) :: res.2.2.map (fun p => (p, total))) ++ [(total, total)]

/-- The percentages of the progress events, in emission order. -/
def scanPcts (raw : RawScanConfig) (rootPath : String)
    (rootEntries : List FsEntry) : List Nat :=
  (scanReports raw rootPath rootEntries).map (fun pr => pct pr.1 pr.2)

/-! ## Classifier (`analyzeFiles`) -/

def parenAfterDigits : List Char → Bool
  | [] => false
  | c :: cs => if c = ')' then true else c.isDigit && parenAfterDigits cs

def digitsThenParen : List Char → Bool
  | [] => false
  | c :: cs => c.isDigit && parenAfterDigits cs

def hasParenNum : List Char → Bool
  | [] => false
  | c :: rest => (c = '(' && digitsThenParen rest) || hasParenNum rest

def hasUnderscoreNum : List Char → Bool
  | [] => false
  | c :: rest =>
    (c = '_' && (match rest with | d :: _ => d.isDigit | [] => false)) ||
    hasUnderscoreNum rest

/-- Model of `file.name.match(/copy|копия|\(\d+\)|_\d+/i)`: a case-folded `copy` or
`копия` substring, a parenthesized integer, or an underscore followed by a
digit. -/
def nameMatchesDup (name : String) : Bool :=
  listHasInfix (strLowerExt name).data "copy".data ||
  listHasInfix (strLowerExt name).data "копия".data ||
  hasParenNum name.data || hasUnderscoreNum name.data

/-- An analyzed record: the scanned fields plus `categories` and
`isUnneeded`.  (`formattedSize`, a display-only string computed with
floating-point `Math.log`, is omitted; no claim concerns it.) -/
structure AFile where
  path : String
  name : String
  size : Nat
  accessed : Int
  modified : Int
  created : Int
  extension : String
  categories : List String
  isUnneeded : Bool
  deriving Repr, DecidableEq

/-- The per-file body of `analyzeFiles`: thresholds resolve with `||`
defaults, `daysSinceAccessed = Math.floor((now − accessed) / 86400000)`
(floor division over ℤ), and the four category checks in source order. -/
def analyzeOne (cfg : ScanConfig) (nowMs : Int) (f : FileData) : AFile :=
  let oldDays : Nat := if cfg.scanAgeThreshold = 0 then 180 else cfg.scanAgeThreshold
  let largeBytes : Nat :=
    if cfg.scanSizeThreshold = 0 then 100 * 1024 * 1024 else cfg.scanSizeThreshold
  let daysSinceAccessed : Int := (nowMs - f.accessed).fdiv 86400000
  let cats₁ : List String :=
    if largeBytes < f.size ∧ (oldDays : Int) < daysSinceAccessed then ["largeUnused"]
    else []
  let cats₂ : List String :=
    if f.extension ∈ [".tmp", ".temp", ".bak", ".cache", ".log"] then ["temporary"]
    else []
  let cats₃ : List String :=
    if f.extension ∈ [".dmg", ".exe", ".pkg", ".iso", ".zip", ".tar", ".gz", ".rar"]
    then ["installer"] else []
  let cats₄ : List String := if nameMatchesDup f.name then ["potentialDuplicate"] else []
  let categories := cats₁ ++ cats₂ ++ cats₃ ++ cats₄
  { path := f.path, name := f.name, size := f.size, accessed := f.accessed,
    modified := f.modified, created := f.created, extension := f.extension,
    categories := categories, isUnneeded := decide (0 < categories.length) }

/-- Model of `analyzeFiles(files, config)`: maps the classifier over the batch. -/
def analyzeFiles (cfg : ScanConfig) (nowMs : Int) (files : List FileData) :
    List AFile :=
  files.map (analyzeOne cfg nowMs)

/-! ### Scanner lemmas -/

/-- Reachability: `SubdirAt rootPath rootEntries l p es` says the directory at path `p` with
listing `es` sits `l` levels below the scan root. -/
inductive SubdirAt (rootPath : String) (rootEntries : List FsEntry) :
    Nat → String → List FsEntry → Prop
  | root : SubdirAt rootPath rootEntries 0 rootPath rootEntries
  | child {l : Nat} {p : String} {es : List FsEntry} {nm : String}
      {ces : List FsEntry} :
      SubdirAt rootPath rootEntries l p es → FsEntry.dir nm ces ∈ es →
      SubdirAt rootPath rootEntries (l + 1) (pathJoin p nm) ces

theorem procEntries_queue (cfg : ScanConfig) (dirPath : String)
    (es : List FsEntry) (acc : ScanAcc) :
    ∀ qe ∈ (procEntries cfg dirPath es acc).queue,
      qe ∈ acc.queue ∨
      ∃ nm ces, FsEntry.dir nm ces ∈ es ∧ qe = (pathJoin dirPath nm, ces) := by
  induction es generalizing acc with
  | nil =>
    intro qe hqe
    exact Or.inl hqe
  | cons e rest ih =>
    intro qe hqe
    have htail : ∀ acc' : ScanAcc, acc'.queue = acc.queue →
        qe ∈ (procEntries cfg dirPath rest acc').queue →
        qe ∈ acc.queue ∨
        ∃ nm ces, FsEntry.dir nm ces ∈ e :: rest ∧ qe = (pathJoin dirPath nm, ces) := by
      intro acc' hq hmem
      rcases ih acc' qe hmem with h | ⟨nm', ces', hmem', he⟩
      · exact Or.inl (hq ▸ h)
      · exact Or.inr ⟨nm', ces', List.mem_cons_of_mem _ hmem', he⟩
    cases e with
    | dir nm children =>
      rw [procEntries] at hqe
      split at hqe
      · exact htail acc rfl hqe
      · split at hqe
        · exact htail acc rfl hqe
        · rcases ih ⟨acc.queue ++ [(pathJoin dirPath nm, children)], acc.files,
              acc.processed, acc.reports⟩ qe hqe with h | ⟨nm', ces', hmem', he⟩
          · rcases List.mem_append.mp h with h | h
            · exact Or.inl h
            · refine Or.inr ⟨nm, children, List.mem_cons_self _ _, ?_⟩
              simpa using h
          · exact Or.inr ⟨nm', ces', List.mem_cons_of_mem _ hmem', he⟩
    | file i =>
      rw [procEntries] at hqe
      split at hqe
      · exact htail acc rfl hqe
      · split at hqe
        · exact htail acc rfl hqe
        · exact htail ⟨acc.queue, acc.files ++ [mkFileData dirPath i],
            acc.processed + 1,
            if (acc.processed + 1) % 10 = 0 then acc.reports ++ [acc.processed + 1]
            else acc.reports⟩ rfl hqe

theorem procEntries_files (cfg : ScanConfig) (dirPath : String)
    (es : List FsEntry) (acc : ScanAcc) :
    ∀ fd ∈ (procEntries cfg dirPath es acc).files,
      fd ∈ acc.files ∨
      ∃ i, FsEntry.file i ∈ es ∧ fd = mkFileData dirPath i ∧
        ¬(0 < cfg.ignoreSizeAbove ∧ cfg.ignoreSizeAbove < i.size) := by
  induction es generalizing acc with
  | nil =>
    intro fd hfd
    exact Or.inl hfd
  | cons e rest ih =>
    intro fd hfd
    have htail : ∀ acc' : ScanAcc, acc'.files = acc.files →
        fd ∈ (procEntries cfg dirPath rest acc').files →
        fd ∈ acc.files ∨
        ∃ i, FsEntry.file i ∈ e :: rest ∧ fd = mkFileData dirPath i ∧
          ¬(0 < cfg.ignoreSizeAbove ∧ cfg.ignoreSizeAbove < i.size) := by
      intro acc' hq hmem
      rcases ih acc' fd hmem with h | ⟨i', hmem', hrest⟩
      · exact Or.inl (hq ▸ h)
      · exact Or.inr ⟨i', List.mem_cons_of_mem _ hmem', hrest⟩
    cases e with
    | dir nm children =>
      rw [procEntries] at hfd
      split at hfd
      · exact htail acc rfl hfd
      · split at hfd
        · exact htail acc rfl hfd
        · exact htail ⟨acc.queue ++ [(pathJoin dirPath nm, children)], acc.files,
            acc.processed, acc.reports⟩ rfl hfd
    | file i =>
      rw [procEntries] at hfd
      split at hfd
      · exact htail acc rfl hfd
      · split at hfd
        · exact htail acc rfl hfd
        · next hsz =>
          rcases ih ⟨acc.queue, acc.files ++ [mkFileData dirPath i],
              acc.processed + 1,
              if (acc.processed + 1) % 10 = 0 then acc.reports ++ [acc.processed + 1]
              else acc.reports⟩ fd hfd with h | ⟨i', hmem', hrest⟩
          · rcases List.mem_append.mp h with h | h
            · exact Or.inl h
            · refine Or.inr ⟨i, List.mem_cons_self _ _, by simpa using h, hsz⟩
          · exact Or.inr ⟨i', List.mem_cons_of_mem _ hmem', hrest⟩

theorem procEntries_processed_le (cfg : ScanConfig) (dirPath : String)
    (es : List FsEntry) (acc : ScanAcc) :
    acc.processed ≤ (procEntries cfg dirPath es acc).processed := by
  induction es generalizing acc with
  | nil => exact Nat.le_refl _
  | cons e rest ih =>
    cases e with
    | dir nm children =>
      rw [procEntries]
      split
      · exact ih acc
      · split
        · exact ih acc
        · exact ih ⟨acc.queue ++ [(pathJoin dirPath nm, children)], acc.files,
            acc.processed, acc.reports⟩
    | file i =>
      rw [procEntries]
      split
      · exact ih acc
      · split
        · exact ih acc
        · exact Nat.le_trans (Nat.le_succ _)
            (ih ⟨acc.queue, acc.files ++ [mkFileData dirPath i],
              acc.processed + 1,
              if (acc.processed + 1) % 10 = 0 then acc.reports ++ [acc.processed + 1]
              else acc.reports⟩)

theorem procEntries_reports (cfg : ScanConfig) (dirPath : String)
    (es : List FsEntry) (acc : ScanAcc)
    (hs : List.Pairwise (· ≤ ·) acc.reports)
    (hb : ∀ x ∈ acc.reports, x ≤ acc.processed) :
    List.Pairwise (· ≤ ·) (procEntries cfg dirPath es acc).reports ∧
    ∀ x ∈ (procEntries cfg dirPath es acc).reports,
      x ≤ (procEntries cfg dirPath es acc).processed := by
  induction es generalizing acc with
  | nil => exact ⟨hs, hb⟩
  | cons e rest ih =>
    cases e with
    | dir nm children =>
      rw [procEntries]
      split
      · exact ih acc hs hb
      · split
        · exact ih acc hs hb
        · exact ih ⟨acc.queue ++ [(pathJoin dirPath nm, children)], acc.files,
            acc.processed, acc.reports⟩ hs hb
    | file i =>
      rw [procEntries]
      split
      · exact ih acc hs hb
      · split
        · exact ih acc hs hb
        · refine ih ⟨acc.queue, acc.files ++ [mkFileData dirPath i],
            acc.processed + 1,
            if (acc.processed + 1) % 10 = 0 then acc.reports ++ [acc.processed + 1]
            else acc.reports⟩ ?_ ?_
          · by_cases hm : (acc.processed + 1) % 10 = 0
            · simp only [hm, if_pos]
              rw [List.pairwise_append]
              refine ⟨hs, by simp, ?_⟩
              intro a ha b hb'
              simp at hb'
              rw [hb']
              exact Nat.le_trans (hb a ha) (Nat.le_succ _)
            · simpa [hm] using hs
          · intro x hx
            by_cases hm : (acc.processed + 1) % 10 = 0
            · simp only [hm, if_pos] at hx
              rcases List.mem_append.mp hx with hx | hx
              · exact Nat.le_trans (hb x hx) (Nat.le_succ _)
              · simp at hx
                rw [hx]
            · simp only [hm] at hx
              simp at hx
              exact Nat.le_trans (hb x hx) (Nat.le_succ _)

/-- The recursion scheme of `scanLoop`: to prove `motive … (scanLoop …)`,
handle the empty queue, the depth cut-off, the visited skip, and the
process-one-directory step. -/
theorem scanLoop_rec (cfg : ScanConfig)
    (motive : List (String × List FsEntry) → List String → Nat → List FileData →
      Nat → List Nat → (List FileData × Nat × List Nat) → Prop)
    (h_nil : ∀ v d f p r, motive [] v d f p r (f, p, r))
    (h_deep : ∀ dp es rest v d f p r, cfg.maxDepth < d →
      motive ((dp, es) :: rest) v d f p r (f, p, r))
    (h_skip : ∀ dp es rest v d f p r out, ¬cfg.maxDepth < d → dp ∈ v →
      motive rest v d f p r out → motive ((dp, es) :: rest) v d f p r out)
    (h_step : ∀ dp es rest v d f p r out, ¬cfg.maxDepth < d → dp ∉ v →
      motive (procEntries cfg dp es ⟨rest, f, p, r⟩).queue (dp :: v) (d + 1)
        (procEntries cfg dp es ⟨rest, f, p, r⟩).files
        (procEntries cfg dp es ⟨rest, f, p, r⟩).processed
        (procEntries cfg dp es ⟨rest, f, p, r⟩).reports out →
      motive ((dp, es) :: rest) v d f p r out) :
    ∀ q v d f p r, motive q v d f p r (scanLoop cfg q v d f p r)
  | [], v, d, f, p, r => by
    rw [scanLoop]
    exact h_nil v d f p r
  | (dp, es) :: rest, v, d, f, p, r => by
    rw [scanLoop]
    by_cases hd : cfg.maxDepth < d
    · rw [if_pos hd]
      exact h_deep dp es rest v d f p r hd
    · rw [if_neg hd]
      by_cases hv : dp ∈ v
      · rw [if_pos hv]
        exact h_skip dp es rest v d f p r _ hd hv
          (scanLoop_rec cfg motive h_nil h_deep h_skip h_step rest v d f p r)
      · rw [if_neg hv]
        exact h_step dp es rest v d f p r _ hd hv
          (scanLoop_rec cfg motive h_nil h_deep h_skip h_step
            (procEntries cfg dp es ⟨rest, f, p, r⟩).queue (dp :: v) (d + 1)
            (procEntries cfg dp es ⟨rest, f, p, r⟩).files
            (procEntries cfg dp es ⟨rest, f, p, r⟩).processed
            (procEntries cfg dp es ⟨rest, f, p, r⟩).reports)
  termination_by q _ d _ _ _ => (cfg.maxDepth + 1 - d, q.length)
  decreasing_by
    · apply Prod.Lex.right
      simp
    · apply Prod.Lex.left
      omega

/-- Claim C2, amended: Every file record the scan emits comes from a directory
at most `maxDepth` levels below the scan root.  (The depth counter is
incremented once per dequeued directory — not once per drained level — so the
bound holds, but directories within the depth limit can be cut off; see the
counterexample.) -/
theorem scanDirectory_depth_bound (cfg : ScanConfig) (rootPath : String)
    (rootEntries : List FsEntry) :
    ∀ fd ∈ (scanDirectory cfg rootPath rootEntries).1,
      ∃ l pth es i, SubdirAt rootPath rootEntries l pth es ∧ l ≤ cfg.maxDepth ∧
        FsEntry.file i ∈ es ∧ fd = mkFileData pth i := by
  have h := scanLoop_rec cfg
    (fun q _v d f _p _r out =>
      (∀ qe ∈ q, ∃ l, l ≤ d ∧ SubdirAt rootPath rootEntries l qe.1 qe.2) →
      (∀ fd ∈ f, ∃ l pth es i, SubdirAt rootPath rootEntries l pth es ∧
        l ≤ cfg.maxDepth ∧ FsEntry.file i ∈ es ∧ fd = mkFileData pth i) →
      ∀ fd ∈ out.1, ∃ l pth es i, SubdirAt rootPath rootEntries l pth es ∧
        l ≤ cfg.maxDepth ∧ FsEntry.file i ∈ es ∧ fd = mkFileData pth i)
    (fun _v _d f _p _r _hq hf => hf)
    (fun _dp _es _rest _v _d f _p _r _hd _hq hf => hf)
    (fun dp es rest _v d f p r out _hd _hv ih hq hf =>
      ih (fun qe hqe => hq qe (List.mem_cons_of_mem _ hqe)) hf)
    (fun dp es rest _v d f p r out hd _hv ih hq hf => by
      obtain ⟨l₀, hl₀, hsub⟩ := hq (dp, es) (List.mem_cons_self _ _)
      refine ih ?_ ?_
      · intro qe hqe
        rcases procEntries_queue cfg dp es ⟨rest, f, p, r⟩ qe hqe with h |
          ⟨nm, ces, hdmem, he⟩
        · obtain ⟨l, hl, hs⟩ := hq qe (List.mem_cons_of_mem _ h)
          exact ⟨l, Nat.le_trans hl (Nat.le_succ _), hs⟩
        · refine ⟨l₀ + 1, Nat.succ_le_succ hl₀, ?_⟩
          rw [he]
          exact SubdirAt.child hsub hdmem
      · intro fd hfd
        rcases procEntries_files cfg dp es ⟨rest, f, p, r⟩ fd hfd with h |
          ⟨i, hfmem, hfd_eq, _⟩
        · exact hf fd h
        · exact ⟨l₀, dp, es, i, hsub, Nat.le_trans hl₀ (Nat.le_of_not_lt hd),
            hfmem, hfd_eq⟩)
    [(rootPath, rootEntries)] [] 0 [] 0 []
  refine h ?_ (by simp)
  intro qe hqe
  rcases List.mem_singleton.mp hqe with rfl
  exact ⟨0, Nat.le_refl 0, SubdirAt.root⟩

/-- Two sibling directories with one file each; depth limit 1. -/
def twoBranchEntries : List FsEntry :=
  [.dir "A" [.file ⟨"a.txt", 1, 0, 0, 0⟩], .dir "B" [.file ⟨"b.txt", 1, 0, 0, 0⟩]]

def depthOneCfg : ScanConfig := ⟨1, true, 0, false, 0, 0⟩

/-- One pass of the per-level scan: drain every directory of the current
generation; `acc.queue` collects the next generation.  This is the reference
semantics the spec describes, not the source's. -/
def levelPass (cfg : ScanConfig) :
    List (String × List FsEntry) → List String → ScanAcc → List String × ScanAcc
  | [], visited, acc => (visited, acc)
  | (dp, es) :: rest, visited, acc =>
    if dp ∈ visited then levelPass cfg rest visited acc
    else levelPass cfg rest (dp :: visited) (procEntries cfg dp es acc)

/-- Reference rendering of the spec's sentence "depth is tracked as queue
generations processed, incremented once per fully-drained directory level":
a breadth-first scan whose depth counter increments once per drained
generation.  Written from the spec's words, for comparison with
`scanDirectory`. -/
def specScanPerLevel (cfg : ScanConfig) (queue : List (String × List FsEntry))
    (visited : List String) (depth : Nat) (files : List FileData) :
    List FileData :=
  match queue with
  | [] => files
  | _ :: _ =>
    if cfg.maxDepth < depth then files
    else
      let pass := levelPass cfg queue visited ⟨[], files, 0, []⟩
      specScanPerLevel cfg pass.2.queue pass.1 (depth + 1) pass.2.files
  termination_by cfg.maxDepth + 1 - depth
  decreasing_by omega

/-- Counterexample for C2: With two sibling directories and `maxDepth = 1`,
the source's per-dequeued-directory counter stops the scan after directory
`A`, dropping `B`'s file even though it is within the depth limit; the
per-level accounting the claim describes would emit both.  So "depth is
accounted once per fully-drained directory level" is false of the code. -/
theorem scanDirectory_not_perLevel :
    ((scanDirectory depthOneCfg "root" twoBranchEntries).1).map (·.path) =
      ["root/A/a.txt"] ∧
    (specScanPerLevel depthOneCfg [("root", twoBranchEntries)] [] 0 []).map (·.path) =
      ["root/A/a.txt", "root/B/b.txt"] := by
  constructor
  · simp +decide [scanDirectory, scanLoop, procEntries]
  · simp +decide [specScanPerLevel, levelPass, procEntries]

/-- Witness for C2: On a concrete tree the emitted root-level file is
certified to come from a directory within the depth bound. -/
theorem scanDirectory_depth_bound_witness :
    ∃ l pth es i, SubdirAt "root" twoBranchEntries l pth es ∧
      l ≤ depthOneCfg.maxDepth ∧ FsEntry.file i ∈ es ∧
      mkFileData "root/A" ⟨"a.txt", 1, 0, 0, 0⟩ = mkFileData pth i :=
  scanDirectory_depth_bound depthOneCfg "root" twoBranchEntries
    (mkFileData "root/A" ⟨"a.txt", 1, 0, 0, 0⟩)
    (by simp +decide [scanDirectory, scanLoop, procEntries, mkFileData])

theorem scanDirectory_size_bound (cfg : ScanConfig) (rootPath : String)
    (rootEntries : List FsEntry) (hpos : 0 < cfg.ignoreSizeAbove) :
    ∀ fd ∈ (scanDirectory cfg rootPath rootEntries).1,
      fd.size ≤ cfg.ignoreSizeAbove := by
  have h := scanLoop_rec cfg
    (fun _q _v _d f _p _r out =>
      (∀ fd ∈ f, fd.size ≤ cfg.ignoreSizeAbove) →
      ∀ fd ∈ out.1, fd.size ≤ cfg.ignoreSizeAbove)
    (fun _v _d f _p _r hf => hf)
    (fun _dp _es _rest _v _d f _p _r _hd hf => hf)
    (fun _dp _es _rest _v _d f _p _r out _hd _hv ih hf => ih hf)
    (fun dp es rest _v d f p r out _hd _hv ih hf => by
      refine ih ?_
      intro fd hfd
      rcases procEntries_files cfg dp es ⟨rest, f, p, r⟩ fd hfd with h |
        ⟨i, _, hfd_eq, hsz⟩
      · exact hf fd h
      · have : fd.size = i.size := by rw [hfd_eq]; rfl
        rw [this]
        by_contra hgt
        exact hsz ⟨hpos, Nat.lt_of_not_le fun hle => hgt hle⟩)
    [(rootPath, rootEntries)] [] 0 [] 0 []
  exact h (by simp)

/-- Claim C6, amended: Setting `ignoreSizeAbove` to 0 does not disable the
size check: the handler replaces 0 with the default 1024 before converting to
bytes, so the resolved limit is `1024·1024·1024` and every emitted file is at
most that large — a larger file is excluded even though the caller asked for
"unlimited".  (Only a resolved byte limit of exactly 0 would disable the
check inside `scanDirectory`, and the handler never produces one.) -/
theorem sizeLimit_zero_not_disabled (raw : RawScanConfig) (rootPath : String)
    (rootEntries : List FsEntry) (hz : raw.ignoreSizeAbove = 0) :
    (resolveScanConfig raw).ignoreSizeAbove = 1073741824 ∧
    ∀ fd ∈ (scanDirectory (resolveScanConfig raw) rootPath rootEntries).1,
      fd.size ≤ 1073741824 := by
  have hres : (resolveScanConfig raw).ignoreSizeAbove = 1073741824 := by
    simp [resolveScanConfig, hz]
  refine ⟨hres, ?_⟩
  intro fd hfd
  have := scanDirectory_size_bound (resolveScanConfig raw) rootPath rootEntries
    (by rw [hres]; decide) fd hfd
  rw [hres] at this
  exact this

def rawZeroLimit : RawScanConfig := { ignoreSizeAbove := 0 }

def oneBigFile : List FsEntry := [.file ⟨"big.bin", 1073741825, 0, 0, 0⟩]

def oneSmallFile : List FsEntry := [.file ⟨"small.bin", 5, 0, 0, 0⟩]

/-- Counterexample for C6: With `ignoreSizeAbove = 0` a file of
`1073741825` bytes is excluded from the results while a 5-byte file is kept:
a file IS excluded because of its size despite the 0 setting, so "0 disables
the size check" is false for the `scan-directory` handler. -/
theorem sizeLimit_zero_excludes :
    ((scanDirectory (resolveScanConfig rawZeroLimit) "root" oneBigFile).1).length = 0 ∧
    ((scanDirectory (resolveScanConfig rawZeroLimit) "root" oneSmallFile).1).length = 1 := by
  constructor <;>
    simp +decide [scanDirectory, scanLoop, procEntries, resolveScanConfig, rawZeroLimit,
      oneBigFile, oneSmallFile]

/-- Witness for C6: The resolved limit for a raw 0 is `2^30`, and a small
emitted file respects the bound. -/
theorem sizeLimit_zero_not_disabled_witness :
    (resolveScanConfig rawZeroLimit).ignoreSizeAbove = 1073741824 ∧
    (mkFileData "root" ⟨"small.bin", 5, 0, 0, 0⟩).size ≤ 1073741824 := by
  have h := sizeLimit_zero_not_disabled rawZeroLimit "root" oneSmallFile rfl
  refine ⟨h.1, ?_⟩
  refine h.2 (mkFileData "root" ⟨"small.bin", 5, 0, 0, 0⟩) ?_
  simp +decide [scanDirectory, scanLoop, procEntries, resolveScanConfig, rawZeroLimit,
    oneSmallFile, mkFileData]

/-! ### Progress percentages (C5) -/

theorem pct_zero_left (t : Nat) : pct 0 t = 0 := by
  unfold pct
  split
  · next ht => exact Nat.div_eq_of_lt (by omega)
  · rfl

theorem pct_mono (t : Nat) {p₁ p₂ : Nat} (h : p₁ ≤ p₂) : pct p₁ t ≤ pct p₂ t := by
  unfold pct
  split
  · exact Nat.div_le_div_right (by omega)
  · exact Nat.le_refl _

theorem pct_le_100 {p t : Nat} (h : p ≤ t) : pct p t ≤ 100 := by
  unfold pct
  split
  · next ht =>
    have hlt : 200 * p + t < 101 * (2 * t) := by omega
    have := (Nat.div_lt_iff_lt_mul (by omega : 0 < 2 * t)).mpr
      (by omega : 200 * p + t < 101 * (2 * t))
    omega
  · omega

theorem pct_self (t : Nat) : pct t t = if 0 < t then 100 else 0 := by
  unfold pct
  by_cases ht : 0 < t
  · rw [if_pos ht, if_pos ht]
    have h1 : 200 * t + t = t + 2 * t * 100 := by ring
    rw [h1, Nat.add_mul_div_left _ _ (by omega : 0 < 2 * t),
      Nat.div_eq_of_lt (by omega)]
  · rw [if_neg ht, if_neg ht]

theorem scanDirectory_reports_inv (cfg : ScanConfig) (rootPath : String)
    (rootEntries : List FsEntry) :
    List.Pairwise (· ≤ ·) (scanDirectory cfg rootPath rootEntries).2.2 ∧
    ∀ x ∈ (scanDirectory cfg rootPath rootEntries).2.2,
      x ≤ (scanDirectory cfg rootPath rootEntries).2.1 := by
  have h := scanLoop_rec cfg
    (fun _q _v _d _f p r out =>
      List.Pairwise (· ≤ ·) r → (∀ x ∈ r, x ≤ p) →
      List.Pairwise (· ≤ ·) out.2.2 ∧ ∀ x ∈ out.2.2, x ≤ out.2.1)
    (fun _v _d _f _p _r hs hb => ⟨hs, hb⟩)
    (fun _dp _es _rest _v _d _f _p _r _hd hs hb => ⟨hs, hb⟩)
    (fun _dp _es _rest _v _d _f _p _r out _hd _hv ih hs hb => ih hs hb)
    (fun dp es rest _v d f p r out _hd _hv ih hs hb => by
      have hpe := procEntries_reports cfg dp es ⟨rest, f, p, r⟩ hs hb
      exact ih hpe.1 hpe.2)
    [(rootPath, rootEntries)] [] 0 [] 0 []
  exact h (by simp) (by simp)

/-- Claim C5, amended: Whenever the `countFiles` pre-pass estimate is at least
the number of files the scan actually collects, the emitted percentages are
monotonically non-decreasing and all lie in [0, 100]; the final report is 100
exactly when the estimate is positive and 0 when it is 0.  (Without that
hypothesis the estimate can undercount — it skips files whose names match the
deny-list and returns 0 on errors — and percentages can exceed 100 and then
drop to the final value; see the counterexample.) -/
theorem scanPcts_props (raw : RawScanConfig) (rootPath : String)
    (rootEntries : List FsEntry)
    (hle : (scanDirectory (resolveScanConfig raw) rootPath rootEntries).2.1 ≤
      countFiles (resolveScanConfig raw).maxDepth rootPath rootEntries) :
    List.Pairwise (· ≤ ·) (scanPcts raw rootPath rootEntries) ∧
    (∀ x ∈ scanPcts raw rootPath rootEntries, x ≤ 100) ∧
    (scanPcts raw rootPath rootEntries).getLast? =
      some (if 0 < countFiles (resolveScanConfig raw).maxDepth rootPath rootEntries
        then 100 else 0) := by
  have hinv := scanDirectory_reports_inv (resolveScanConfig raw) rootPath rootEntries
  set t := countFiles (resolveScanConfig raw).maxDepth rootPath rootEntries with hT
  set res := scanDirectory (resolveScanConfig raw) rootPath rootEntries with hres
  have hticks : ∀ x ∈ res.2.2, x ≤ t := fun x hx => Nat.le_trans (hinv.2 x hx) hle
  have hmap : scanPcts raw rootPath rootEntries =
      (pct 0 t :: res.2.2.map (fun p => pct p t)) ++ [pct t t] := by
    simp [scanPcts, scanReports, ← hT, ← hres, List.map_append, Function.comp]
  refine ⟨?_, ?_, ?_⟩
  · rw [hmap, List.pairwise_append]
    refine ⟨?_, by simp, ?_⟩
    · rw [List.pairwise_cons]
      refine ⟨?_, ?_⟩
      · intro b hb
        rw [pct_zero_left]
        exact Nat.zero_le b
      · exact List.Pairwise.map _ (fun a b hab => pct_mono t hab) hinv.1
    · intro a ha b hb
      rw [List.mem_singleton] at hb
      rw [hb]
      rcases List.mem_cons.mp ha with ha | ha
      · rw [ha, pct_zero_left]
        exact Nat.zero_le _
      · obtain ⟨x, hx, hxa⟩ := List.mem_map.mp ha
        rw [← hxa]
        exact pct_mono t (hticks x hx)
  · intro x hx
    rw [hmap] at hx
    rcases List.mem_append.mp hx with hx | hx
    · rcases List.mem_cons.mp hx with hx | hx
      · rw [hx, pct_zero_left]
        omega
      · obtain ⟨y, hy, hyx⟩ := List.mem_map.mp hx
        rw [← hyx]
        exact pct_le_100 (hticks y hy)
    · rw [List.mem_singleton] at hx
      rw [hx]
      exact pct_le_100 (Nat.le_refl t)
  · rw [hmap, List.getLast?_concat, pct_self]

def tenFiles : List FsEntry :=
  [.file ⟨"f0", 1, 0, 0, 0⟩, .file ⟨"f1", 1, 0, 0, 0⟩, .file ⟨"f2", 1, 0, 0, 0⟩,
   .file ⟨"f3", 1, 0, 0, 0⟩, .file ⟨"f4", 1, 0, 0, 0⟩, .file ⟨"f5", 1, 0, 0, 0⟩,
   .file ⟨"f6", 1, 0, 0, 0⟩, .file ⟨"f7", 1, 0, 0, 0⟩, .file ⟨"f8", 1, 0, 0, 0⟩,
   .file ⟨"f9", 1, 0, 0, 0⟩]

/-- Witness for C5: On ten plain files the estimate matches the scan, the
percentage sequence is `[0, 100, 100]`, and the final report is 100. -/
theorem scanPcts_props_witness :
    List.Pairwise (· ≤ ·) (scanPcts {} "root" tenFiles) ∧
    (scanPcts {} "root" tenFiles).getLast? =
      some (if 0 < countFiles (resolveScanConfig {}).maxDepth "root" tenFiles
        then 100 else 0) := by
  have h := scanPcts_props {} "root" tenFiles
    (by simp +decide [scanDirectory, scanLoop, procEntries, countFiles,
      countFilesList, resolveScanConfig, tenFiles])
  exact ⟨h.1, h.2.2⟩

/-- A plain file followed by ten files whose names contain `.git`: the scan
emits all eleven but `countFiles` skips the deny-list matches and estimates
a total of 1. -/
def gitNameEntries : List FsEntry :=
  [.file ⟨"a.txt", 1, 0, 0, 0⟩,
   .file ⟨"r0.git", 1, 0, 0, 0⟩, .file ⟨"r1.git", 1, 0, 0, 0⟩,
   .file ⟨"r2.git", 1, 0, 0, 0⟩, .file ⟨"r3.git", 1, 0, 0, 0⟩,
   .file ⟨"r4.git", 1, 0, 0, 0⟩, .file ⟨"r5.git", 1, 0, 0, 0⟩,
   .file ⟨"r6.git", 1, 0, 0, 0⟩, .file ⟨"r7.git", 1, 0, 0, 0⟩,
   .file ⟨"r8.git", 1, 0, 0, 0⟩, .file ⟨"r9.git", 1, 0, 0, 0⟩]

/-- Counterexample for C5: On an empty directory the estimate is 0 and the
final report is 0%, not 100%; and when the estimate undercounts (file names
matching the deny-list are skipped by `countFiles` but scanned), the emitted
percentages are `[0, 1000, 100]` — a report above 100 followed by a drop, so
the claimed range, monotonicity, and final-100 all fail as stated. -/
theorem scanPcts_break :
    scanPcts {} "root" [] = [0, 0] ∧
    scanPcts {} "root" gitNameEntries = [0, 1000, 100] := by
  constructor <;>
    simp +decide [scanPcts, scanReports, scanDirectory, scanLoop, procEntries,
      countFiles, countFilesList, resolveScanConfig, pct, gitNameEntries]

/-! ### Classifier purity (C8) -/

/-- Claim C8, amended: The classifier is a pure, deterministic function of the
file record, the thresholds, AND the clock reading `now` (the source calls
`new Date()` inside `analyzeFiles`): two records agreeing on the four fields
the classifier reads — `size`, `accessed`, `extension`, `name` — receive
identical categories and an identical reclaimable flag at the same instant,
whatever their other fields.  It is not a function of record and thresholds
alone; see the counterexample. -/
theorem analyzeOne_pure (cfg : ScanConfig) (nowMs : Int) (f₁ f₂ : FileData)
    (hsz : f₁.size = f₂.size) (hacc : f₁.accessed = f₂.accessed)
    (hext : f₁.extension = f₂.extension) (hnm : f₁.name = f₂.name) :
    (analyzeOne cfg nowMs f₁).categories = (analyzeOne cfg nowMs f₂).categories ∧
    (analyzeOne cfg nowMs f₁).isUnneeded = (analyzeOne cfg nowMs f₂).isUnneeded := by
  unfold analyzeOne
  rw [hsz, hacc, hext, hnm]
  exact ⟨rfl, rfl⟩

/-- Witness for C8: Two records identical in the classified fields but with
different paths and timestamps classify identically. -/
theorem analyzeOne_pure_witness :
    (analyzeOne (resolveScanConfig {}) 0
      ⟨"x", "n.tmp", 5, 0, 0, 0, ".tmp"⟩).categories =
    (analyzeOne (resolveScanConfig {}) 0
      ⟨"y", "n.tmp", 5, 0, 7, 9, ".tmp"⟩).categories ∧
    (analyzeOne (resolveScanConfig {}) 0
      ⟨"x", "n.tmp", 5, 0, 0, 0, ".tmp"⟩).isUnneeded =
    (analyzeOne (resolveScanConfig {}) 0
      ⟨"y", "n.tmp", 5, 0, 7, 9, ".tmp"⟩).isUnneeded :=
  analyzeOne_pure (resolveScanConfig {}) 0
    ⟨"x", "n.tmp", 5, 0, 0, 0, ".tmp"⟩ ⟨"y", "n.tmp", 5, 0, 7, 9, ".tmp"⟩
    rfl rfl rfl rfl

/-- A 200 MiB file last accessed at epoch 0. -/
def staleFile : FileData := ⟨"root/big.dat", "big.dat", 209715200, 0, 0, 0, ".dat"⟩

/-- Counterexample for C8: The same record under the same thresholds
classifies differently at two clock readings (0 and 400 days): the
`largeUnused` category depends on `new Date()`, so classification is NOT a
function of the record and thresholds alone. -/
theorem analyzeOne_clock_dependent :
    (analyzeOne (resolveScanConfig {}) 0 staleFile).categories = [] ∧
    (analyzeOne (resolveScanConfig {}) 34560000000 staleFile).categories =
      ["largeUnused"] := by
  constructor <;> decide

/-! ## Backup / delete / restore store -/

/-- The sidecar metadata record (`<backup>.meta.json`). -/
structure MetaRec where
  originalPath : String
  size : Nat
  created : Int
  modified : Int
  backupDate : Int
  deriving Repr, DecidableEq

/-- File content: raw bytes, or a parsed metadata record (modelling the JSON
serialization round-trip of the sidecar). -/
inductive FContent where
  | bytes (bs : List Nat)
  | meta (m : MetaRec)
  deriving Repr, DecidableEq

def contentSize : FContent → Nat
  | .bytes bs => bs.length
  | .meta _ => 0

structure MFile where
  content : FContent
  birthtimeMs : Int
  mtimeMs : Int
  deriving Repr, DecidableEq

/-- The filesystem the backup store operates on: files by path, plus the set
of existing directories. -/
structure Fs where
  files : List (String × MFile)
  dirs : List String
  deriving Repr, DecidableEq

def lookupAssoc : List (String × MFile) → String → Option MFile
  | [], _ => none
  | (q, f) :: rest, p => if q = p then some f else lookupAssoc rest p

def fsLookup (fs : Fs) (p : String) : Option MFile := lookupAssoc fs.files p

def fsExists (fs : Fs) (p : String) : Bool :=
  (fsLookup fs p).isSome || decide (p ∈ fs.dirs)

def setAssoc (p : String) (f : MFile) : List (String × MFile) → List (String × MFile)
  | [] => [(p, f)]
  | (q, g) :: rest => if q = p then (p, f) :: rest else (q, g) :: setAssoc p f rest

def fsSetFile (fs : Fs) (p : String) (f : MFile) : Fs :=
  { fs with files := setAssoc p f fs.files }

def fsRemove (fs : Fs) (p : String) : Fs :=
  { fs with files := fs.files.filter (fun kv => !(kv.1 = p)) }

def ensureDir (fs : Fs) (d : String) : Fs :=
  if d ∈ fs.dirs then fs else { fs with dirs := d :: fs.dirs }

/-- Which fallible writes succeed: `copyFile` keyed by source, `writeFile`
keyed by destination, `unlink` keyed by path.  Models the exceptions the
source catches. -/
structure WriteOracle where
  copyOk : String → Bool
  writeOk : String → Bool
  unlinkOk : String → Bool

/-- Successful filesystem mutations, in order. -/
inductive FsEv where
  | copy (src dst : String) (c : FContent)
  | metaWrite (dst : String) (m : MetaRec)
  | unlink (p : String)
  deriving Repr, DecidableEq

/-- Result of `backupFile`: `{success, backupPath}` or `{success: false,
error}`, plus the filesystem after the attempt and the successful events. -/
structure BkRes where
  success : Bool
  backupPath : String
  errMsg : String
  fs : Fs
  evs : List FsEv
  deriving Repr

/-- Model of `backupFile(filePath)`: ensure the trash directory, derive
`<timestamp>_<basename>` (the timestamp string `ts` is the caller's clock
reading with `:` replaced), `stat` the source, copy the bytes, then write the
sidecar metadata; any failure is caught and reported.  Note a failed
metadata write leaves the copied bytes behind. -/
def backupFile (orc : WriteOracle) (trashPath ts : String) (nowMs : Int)
    (fs : Fs) (p : String) : BkRes :=
  let fs₁ := ensureDir fs trashPath
  let backupPath := pathJoin trashPath (ts ++ "_" ++ basename p)
  match fsLookup fs₁ p with
  | none => ⟨false, "", "stat failed", fs₁, []⟩
  | some f =>
    let md : MetaRec :=
      { originalPath := p, size := contentSize f.content, created := f.birthtimeMs,
        modified := f.mtimeMs, backupDate := nowMs }
    if orc.copyOk p then
      let fs₂ := fsSetFile fs₁ backupPath ⟨f.content, nowMs, nowMs⟩
      if orc.writeOk (backupPath ++ ".meta.json") then
        ⟨true, backupPath, "",
          fsSetFile fs₂ (backupPath ++ ".meta.json") ⟨.meta md, nowMs, nowMs⟩,
          [.copy p backupPath f.content, .metaWrite (backupPath ++ ".meta.json") md]⟩
      else ⟨false, "", "metadata write failed", fs₂, [.copy p backupPath f.content]⟩
    else ⟨false, "", "copy failed", fs₁, []⟩

/-- One `DeleteOutcome` (`backupFailed` models the extra flag the handler
sets when the backup step fails; it is absent/falsy otherwise). -/
structure DeleteOutcome where
  path : String
  deleted : Bool
  backupPath : Option String
  error : Option String
  backupFailed : Bool
  deriving Repr, DecidableEq

structure DelSt where
  fs : Fs
  outcomes : List DeleteOutcome
  trace : List FsEv
  deriving Repr

/-- One iteration of the `for (const filePath of filePaths)` loop: a missing
path yields a not-found outcome and touches nothing; otherwise back up, and
only on backup success unlink (an unlink failure is caught and reported,
leaving the backup in place). -/
def deleteStep (orc : WriteOracle) (trashPath : String) (ts : String → String)
    (nowMs : Int) (st : DelSt) (p : String) : DelSt :=
  if fsExists st.fs p then
    let bk := backupFile orc trashPath (ts p) nowMs st.fs p
    if bk.success then
      if orc.unlinkOk p then
        { fs := fsRemove bk.fs p,
          outcomes := st.outcomes ++ [⟨p, true, some bk.backupPath, none, false⟩],
          trace := st.trace ++ bk.evs ++ [.unlink p] }
      else
        { fs := bk.fs,
          outcomes := st.outcomes ++ [⟨p, false, none, some "unlink failed", false⟩],
          trace := st.trace ++ bk.evs }
    else
      { fs := bk.fs,
        outcomes := st.outcomes ++
          [⟨p, false, none, some ("Backup failed: " ++ bk.errMsg), true⟩],
        trace := st.trace ++ bk.evs }
  else
    { st with outcomes := st.outcomes ++ [⟨p, false, none, some "File not found", false⟩] }

def deleteFilesRun (orc : WriteOracle) (trashPath : String) (ts : String → String)
    (nowMs : Int) (fs : Fs) (paths : List String) : DelSt :=
  paths.foldl (deleteStep orc trashPath ts nowMs) ⟨fs, [], []⟩

/-- The argument the `delete-files` IPC handler receives: anything that is
not an array, or an array of paths. -/
inductive DeleteArg where
  | notArray
  | arr (paths : List String)
  deriving Repr, DecidableEq

structure DeleteResult where
  success : Bool
  data : List DeleteOutcome
  error : Option String
  fs : Fs
  trace : List FsEv
  deriving Repr

/-- The `delete-files` handler: a non-array or empty argument is rejected
with `success: false`, empty `data`, and an error message; otherwise the
per-path loop runs and overall success is `results.every(r => r.deleted)`. -/
def deleteFilesHandler (orc : WriteOracle) (trashPath : String)
    (ts : String → String) (nowMs : Int) (fs : Fs) (arg : DeleteArg) : DeleteResult :=
  match arg with
  | .notArray => ⟨false, [], some "No files provided for deletion", fs, []⟩
  | .arr [] => ⟨false, [], some "No files provided for deletion", fs, []⟩
  | .arr paths =>
    let st := deleteFilesRun orc trashPath ts nowMs fs paths
    ⟨st.outcomes.all (·.deleted), st.outcomes, none, st.fs, st.trace⟩

/-! ### Backup listing and restore -/

def strEnds (s suffix : String) : Bool := List.isSuffixOf suffix.data s.data

/-- The backup id: `md5(backupPath + mtime)`.  The digest is modelled as an
injective encoding of its input (ids are stable and collision-free exactly as
the source intends). -/
def idOf (backupPath : String) (mtimeMs : Int) : String :=
  backupPath ++ "#" ++ toString mtimeMs

/-- The character class of `/^[0-9\-TZ_]+_/`. -/
def tsChar (c : Char) : Bool :=
  c.isDigit || c = '-' || c = 'T' || c = 'Z' || c = '_'

/-- Model of `name.replace(/^[0-9\-TZ_]+_/, '')`: strip through the last `_` of the
maximal timestamp-character prefix, provided at least one character precedes
it. -/
def stripTsMarker (cs : List Char) : List Char :=
  match lastIdxOf '_' (cs.takeWhile tsChar) with
  | some k => if 1 ≤ k then cs.drop (k + 1) else cs
  | none => cs

/-- A backup-store record as `getBackupsList` returns it. -/
structure BackupRec where
  id : String
  originalPath : String
  backupPath : String
  fileName : String
  size : Nat
  backupDate : Int
  deriving Repr, DecidableEq

/-- Model of `getBackupsList`: list the trash directory, keep non-`.meta.json` files,
read the sidecar when present (a sidecar that fails to parse drops the whole
record — the inner catch returns null), derive the id from
`backupPath + mtime`, and strip the timestamp prefix for display. -/
def getBackupsList (fs : Fs) (trashPath : String) : List BackupRec :=
  fs.files.filterMap (fun kv =>
    if dirname kv.1 = trashPath ∧ ¬strEnds kv.1 ".meta.json" then
      let backupPath := kv.1
      let mkRec : Option MetaRec → BackupRec := fun md =>
        { id := idOf backupPath kv.2.mtimeMs
          originalPath := (md.map (·.originalPath)).getD "Unknown"
          backupPath := backupPath
          fileName := String.mk (stripTsMarker (basename backupPath).data)
          size := contentSize kv.2.content
          backupDate := (md.map (·.backupDate)).getD kv.2.mtimeMs }
      match fsLookup fs (backupPath ++ ".meta.json") with
      | some mf =>
        match mf.content with
        | .meta m => some (mkRec (some m))
        | .bytes _ => none
      | none => some (mkRec none)
    else none)

inductive RestoreRes where
  | ok (restoredTo : String)
  | err (msg : String)
  deriving Repr, DecidableEq

/-- Model of `restoreBackup(backupId, targetPath)`: look the id up in the backup list;
resolve the restoration path as the supplied target or the recorded original;
fail when neither is available; fail when the target's parent directory does
not exist; when the destination exists, ask for confirmation
(`confirmOverwrite` models the dialog answer); only then copy the backup
bytes to the target.  Returns the result together with the (possibly
updated) filesystem. -/
def restoreBackup (fs : Fs) (trashPath : String) (backupId : String)
    (targetPath : Option String) (confirmOverwrite : Bool) : RestoreRes × Fs :=
  match (getBackupsList fs trashPath).find? (fun b => b.id = backupId) with
  | none => (.err "Backup not found", fs)
  | some b =>
    let restorationPath := targetPath.getD b.originalPath
    if targetPath = none ∧ b.originalPath = "" then
      (.err "Original path not found. Please specify a target path.", fs)
    else if fsExists fs (dirname restorationPath) = false then
      (.err ("Target directory does not exist: " ++ dirname restorationPath), fs)
    else if fsExists fs restorationPath ∧ ¬confirmOverwrite then
      (.err "Restoration cancelled by user", fs)
    else
      match fsLookup fs b.backupPath with
      | some bf => (.ok restorationPath, fsSetFile fs restorationPath bf)
      | none => (.err "copy failed", fs)

/-! ### Delete orchestration proofs -/

/-- A trace removes an original only after both the backup copy and the
sidecar metadata were successfully written: every `unlink p` is preceded by a
`copy` of `p`'s bytes to some backup path and a `metaWrite` of that path's
sidecar. -/
def SafeTrace (t : List FsEv) : Prop :=
  ∀ (n : Nat) (p : String), t[n]? = some (FsEv.unlink p) →
    ∃ (i j : Nat) (bp : String) (c : FContent) (m : MetaRec),
      i < n ∧ j < n ∧ t[i]? = some (FsEv.copy p bp c) ∧
      t[j]? = some (FsEv.metaWrite (bp ++ ".meta.json") m)

theorem safeTrace_nil : SafeTrace [] := by
  unfold SafeTrace
  intro n p hn
  simp at hn

theorem lt_length_of_getElem?_some {l : List α} {n : Nat} {a : α}
    (h : l[n]? = some a) : n < l.length := by
  by_contra hn
  rw [List.getElem?_eq_none (Nat.le_of_not_lt hn)] at h
  cases h

theorem safeTrace_snoc_aux {t : List FsEv} {e : FsEv} (hs : SafeTrace t)
    {n : Nat} {p : String} (hlt : n < t.length)
    (hn : (t ++ [e])[n]? = some (FsEv.unlink p)) :
    ∃ i j bp c m, i < n ∧ j < n ∧ (t ++ [e])[i]? = some (FsEv.copy p bp c) ∧
      (t ++ [e])[j]? = some (FsEv.metaWrite (bp ++ ".meta.json") m) := by
  unfold SafeTrace at hs
  rw [List.getElem?_append, if_pos hlt] at hn
  obtain ⟨i, j, bp, c, m, hi, hj, hci, hmj⟩ := hs n p hn
  refine ⟨i, j, bp, c, m, hi, hj, ?_, ?_⟩
  · rw [List.getElem?_append, if_pos (Nat.lt_trans hi hlt)]
    exact hci
  · rw [List.getElem?_append, if_pos (Nat.lt_trans hj hlt)]
    exact hmj

theorem safeTrace_snoc_other {t : List FsEv} {e : FsEv} (hs : SafeTrace t)
    (he : ∀ q, e ≠ FsEv.unlink q) : SafeTrace (t ++ [e]) := by
  unfold SafeTrace
  intro n p hn
  by_cases hlt : n < t.length
  · exact safeTrace_snoc_aux hs hlt hn
  · rw [List.getElem?_append, if_neg hlt] at hn
    match hk : n - t.length with
    | 0 =>
      rw [hk] at hn
      simp at hn
      exact absurd hn (he p)
    | k + 1 =>
      rw [hk] at hn
      simp at hn

theorem safeTrace_append_other {t : List FsEv} {l : List FsEv} (hs : SafeTrace t)
    (he : ∀ e ∈ l, ∀ q, e ≠ .unlink q) : SafeTrace (t ++ l) := by
  induction l generalizing t with
  | nil => simpa using hs
  | cons e rest ih =>
    have : t ++ e :: rest = (t ++ [e]) ++ rest := by simp
    rw [this]
    exact ih (safeTrace_snoc_other hs (he e (List.mem_cons_self _ _)))
      (fun e' he' q => he e' (List.mem_cons_of_mem _ he') q)

theorem safeTrace_snoc_unlink (t : List FsEv) (p bp : String) (c : FContent)
    (m : MetaRec) (hs : SafeTrace t) (hc : FsEv.copy p bp c ∈ t)
    (hm : FsEv.metaWrite (bp ++ ".meta.json") m ∈ t) :
    SafeTrace (t ++ [FsEv.unlink p]) := by
  unfold SafeTrace
  intro n p' hn
  by_cases hlt : n < t.length
  · exact safeTrace_snoc_aux hs hlt hn
  · rw [List.getElem?_append, if_neg hlt] at hn
    match hk : n - t.length with
    | 0 =>
      rw [hk] at hn
      simp at hn
      obtain ⟨i, hi⟩ := List.mem_iff_getElem?.mp hc
      obtain ⟨j, hj⟩ := List.mem_iff_getElem?.mp hm
      have hil := lt_length_of_getElem?_some hi
      have hjl := lt_length_of_getElem?_some hj
      have hnt : n = t.length := by omega
      refine ⟨i, j, bp, c, m, by omega, by omega, ?_, ?_⟩
      · rw [List.getElem?_append, if_pos hil, hi, hn]
      · rw [List.getElem?_append, if_pos hjl, hj]
    | k + 1 =>
      rw [hk] at hn
      simp at hn

theorem backupFile_evs_other (orc : WriteOracle) (trashPath ts : String)
    (nowMs : Int) (fs : Fs) (p : String) :
    ∀ e ∈ (backupFile orc trashPath ts nowMs fs p).evs, ∀ q, e ≠ FsEv.unlink q := by
  simp only [backupFile]
  cases hf : fsLookup (ensureDir fs trashPath) p with
  | none => simp
  | some f =>
    by_cases hc : orc.copyOk p = true
    · by_cases hw : orc.writeOk (pathJoin trashPath (ts ++ "_" ++ basename p) ++
          ".meta.json") = true
      · simp [hc, hw]
      · simp [hc, hw]
    · simp [hc]

theorem backupFile_success_evs (orc : WriteOracle) (trashPath ts : String)
    (nowMs : Int) (fs : Fs) (p : String)
    (hsucc : (backupFile orc trashPath ts nowMs fs p).success = true) :
    ∃ c m, (backupFile orc trashPath ts nowMs fs p).evs =
      [FsEv.copy p (backupFile orc trashPath ts nowMs fs p).backupPath c,
       FsEv.metaWrite ((backupFile orc trashPath ts nowMs fs p).backupPath ++
         ".meta.json") m] := by
  simp only [backupFile] at hsucc ⊢
  cases hf : fsLookup (ensureDir fs trashPath) p with
  | none => simp [hf] at hsucc
  | some f =>
    simp only [hf] at hsucc ⊢
    by_cases hc : orc.copyOk p = true
    · by_cases hw : orc.writeOk (pathJoin trashPath (ts ++ "_" ++ basename p) ++
          ".meta.json") = true
      · simp only [hc, hw, if_pos, if_true]
        exact ⟨f.content, _, rfl⟩
      · simp [hc, hw] at hsucc
    · simp [hc] at hsucc

theorem deleteStep_safe (orc : WriteOracle) (trashPath : String)
    (ts : String → String) (nowMs : Int) (st : DelSt) (p : String)
    (hs : SafeTrace st.trace) :
    SafeTrace (deleteStep orc trashPath ts nowMs st p).trace := by
  have hother : SafeTrace (st.trace ++ (backupFile orc trashPath (ts p) nowMs st.fs p).evs) :=
    safeTrace_append_other hs (backupFile_evs_other orc trashPath (ts p) nowMs st.fs p)
  unfold deleteStep
  by_cases he : fsExists st.fs p = true
  · rw [if_pos he]
    by_cases hbk : (backupFile orc trashPath (ts p) nowMs st.fs p).success = true
    · rw [if_pos hbk]
      by_cases hu : orc.unlinkOk p = true
      · rw [if_pos hu]
        show SafeTrace (st.trace ++ (backupFile orc trashPath (ts p) nowMs st.fs p).evs ++
          [FsEv.unlink p])
        obtain ⟨c, m, hevs⟩ :=
          backupFile_success_evs orc trashPath (ts p) nowMs st.fs p hbk
        refine safeTrace_snoc_unlink _ p
          (backupFile orc trashPath (ts p) nowMs st.fs p).backupPath c m hother ?_ ?_
        · refine List.mem_append_right _ ?_
          rw [hevs]
          exact List.mem_cons_self _ _
        · refine List.mem_append_right _ ?_
          rw [hevs]
          exact List.mem_cons_of_mem _ (List.mem_cons_self _ _)
      · rw [if_neg hu]
        exact hother
    · rw [if_neg hbk]
      exact hother
  · rw [if_neg he]
    exact hs

theorem deleteFilesRun_safe (orc : WriteOracle) (trashPath : String)
    (ts : String → String) (nowMs : Int) (fs : Fs) (paths : List String) :
    SafeTrace (deleteFilesRun orc trashPath ts nowMs fs paths).trace := by
  unfold deleteFilesRun
  have h : ∀ (ps : List String) (st : DelSt), SafeTrace st.trace →
      SafeTrace (ps.foldl (deleteStep orc trashPath ts nowMs) st).trace := by
    intro ps
    induction ps with
    | nil => exact fun st h => h
    | cons p ps ih =>
      intro st h
      exact ih _ (deleteStep_safe orc trashPath ts nowMs st p h)
  exact h paths ⟨fs, [], []⟩ safeTrace_nil

theorem deleteStep_outcome (orc : WriteOracle) (trashPath : String)
    (ts : String → String) (nowMs : Int) (st : DelSt) (p : String) :
    ∃ o : DeleteOutcome, o.path = p ∧
      (deleteStep orc trashPath ts nowMs st p).outcomes = st.outcomes ++ [o] := by
  unfold deleteStep
  by_cases he : fsExists st.fs p = true
  · rw [if_pos he]
    by_cases hbk : (backupFile orc trashPath (ts p) nowMs st.fs p).success = true
    · rw [if_pos hbk]
      by_cases hu : orc.unlinkOk p = true
      · rw [if_pos hu]
        exact ⟨_, rfl, rfl⟩
      · rw [if_neg hu]
        exact ⟨_, rfl, rfl⟩
    · rw [if_neg hbk]
      exact ⟨_, rfl, rfl⟩
  · rw [if_neg he]
    exact ⟨_, rfl, rfl⟩

theorem deleteFilesRun_paths (orc : WriteOracle) (trashPath : String)
    (ts : String → String) (nowMs : Int) (fs : Fs) (paths : List String) :
    (deleteFilesRun orc trashPath ts nowMs fs paths).outcomes.map (·.path) = paths := by
  unfold deleteFilesRun
  have h : ∀ (ps : List String) (st : DelSt),
      (ps.foldl (deleteStep orc trashPath ts nowMs) st).outcomes.map (·.path) =
        st.outcomes.map (·.path) ++ ps := by
    intro ps
    induction ps with
    | nil => simp
    | cons p ps ih =>
      intro st
      rw [List.foldl_cons, ih]
      obtain ⟨o, hop, ho⟩ := deleteStep_outcome orc trashPath ts nowMs st p
      rw [ho]
      simp [hop]
  simpa using h paths ⟨fs, [], []⟩

/-- Claim C1: Delete-via-backup: (1) every requested path yields exactly one
`DeleteOutcome`, in order; (2) the event trace never removes an original
before both its backup bytes and the sidecar metadata were successfully
written; (3) a path that does not exist when its turn comes yields the
single outcome `deleted = false`, `error = "File not found"`, and the
iteration changes nothing — no backup artifact is created for it. -/
theorem deleteFiles_backup_before_remove (orc : WriteOracle) (trashPath : String)
    (ts : String → String) (nowMs : Int) (fs : Fs) (paths : List String) :
    ((deleteFilesRun orc trashPath ts nowMs fs paths).outcomes.map (·.path) = paths) ∧
    SafeTrace (deleteFilesRun orc trashPath ts nowMs fs paths).trace ∧
    (∀ (st : DelSt) (p : String), fsExists st.fs p = false →
      deleteStep orc trashPath ts nowMs st p =
        { st with outcomes :=
            st.outcomes ++ [⟨p, false, none, some "File not found", false⟩] }) := by
  refine ⟨deleteFilesRun_paths orc trashPath ts nowMs fs paths,
    deleteFilesRun_safe orc trashPath ts nowMs fs paths, ?_⟩
  intro st p hne
  unfold deleteStep
  rw [if_neg (by rw [hne]; exact Bool.false_ne_true)]

def orcOk : WriteOracle := ⟨fun _ => true, fun _ => true, fun _ => true⟩

def homeFs : Fs := ⟨[("home/a.txt", ⟨.bytes [1, 2], 0, 0⟩)], ["home"]⟩

/-- Witness for C1: On a concrete run over one existing and one missing
path: outcomes are one per path in order, the unlink at trace position 2 is
preceded by its copy and sidecar write, and the missing path's iteration
only appends the not-found outcome. -/
theorem deleteFiles_backup_before_remove_witness :
    ((deleteFilesRun orcOk "trash" (fun _ => "T") 0 homeFs
      ["home/a.txt", "home/missing"]).outcomes.map (·.path) =
      ["home/a.txt", "home/missing"]) ∧
    (∃ (i j : Nat) (bp : String) (c : FContent) (m : MetaRec),
      i < 2 ∧ j < 2 ∧
      (deleteFilesRun orcOk "trash" (fun _ => "T") 0 homeFs
        ["home/a.txt", "home/missing"]).trace[i]? =
        some (FsEv.copy "home/a.txt" bp c) ∧
      (deleteFilesRun orcOk "trash" (fun _ => "T") 0 homeFs
        ["home/a.txt", "home/missing"]).trace[j]? =
        some (FsEv.metaWrite (bp ++ ".meta.json") m)) ∧
    (deleteStep orcOk "trash" (fun _ => "T") 0 ⟨homeFs, [], []⟩ "home/missing" =
      ⟨homeFs, [⟨"home/missing", false, none, some "File not found", false⟩], []⟩) := by
  have h := deleteFiles_backup_before_remove orcOk "trash" (fun _ => "T") 0 homeFs
    ["home/a.txt", "home/missing"]
  have hsafe := h.2.1
  unfold SafeTrace at hsafe
  refine ⟨h.1, hsafe 2 "home/a.txt" (by decide), ?_⟩
  have h3 := h.2.2 ⟨homeFs, [], []⟩ "home/missing" (by decide)
  simpa using h3

/-- Claim C9: `restoreBackup` with a target path whose parent directory does
not exist fails with the target-directory-missing error and performs no
copy: the filesystem is returned unchanged. -/
theorem restoreBackup_targetDir_missing (fs : Fs) (trashPath backupId : String)
    (tp : String) (confirm : Bool) (b : BackupRec)
    (hfind : (getBackupsList fs trashPath).find? (fun x => x.id = backupId) = some b)
    (hdir : fsExists fs (dirname tp) = false) :
    restoreBackup fs trashPath backupId (some tp) confirm =
      (.err ("Target directory does not exist: " ++ dirname tp), fs) := by
  unfold restoreBackup
  rw [hfind]
  simp only [Option.getD_some]
  have h1 : ¬((some tp : Option String) = none ∧ b.originalPath = "") := by simp
  rw [if_neg h1, if_pos hdir]

def trashFs : Fs :=
  ⟨[("trash/2024_a.txt", ⟨.bytes [1], 0, 5⟩),
    ("trash/2024_a.txt.meta.json", ⟨.meta ⟨"home/a.txt", 1, 0, 0, 0⟩, 0, 0⟩)],
   ["trash"]⟩

/-- Witness for C9: A concrete backup restored towards `nodir/b.txt`, whose
parent `nodir` does not exist, fails and leaves the filesystem unchanged. -/
theorem restoreBackup_targetDir_missing_witness :
    restoreBackup trashFs "trash" (idOf "trash/2024_a.txt" 5) (some "nodir/b.txt")
      true =
      (.err ("Target directory does not exist: " ++ dirname "nodir/b.txt"),
        trashFs) :=
  restoreBackup_targetDir_missing trashFs "trash" (idOf "trash/2024_a.txt" 5)
    "nodir/b.txt" true
    ⟨idOf "trash/2024_a.txt" 5, "home/a.txt", "trash/2024_a.txt", "a.txt", 1, 0⟩
    (by decide) (by decide)

/-- Claim C10: `deleteFiles` invoked with a non-array argument or an empty
path list returns overall `success = false`, an empty outcomes list, and an
error message — not a vacuous success. -/
theorem deleteFiles_empty_rejected (orc : WriteOracle) (trashPath : String)
    (ts : String → String) (nowMs : Int) (fs : Fs) :
    deleteFilesHandler orc trashPath ts nowMs fs .notArray =
      ⟨false, [], some "No files provided for deletion", fs, []⟩ ∧
    deleteFilesHandler orc trashPath ts nowMs fs (.arr []) =
      ⟨false, [], some "No files provided for deletion", fs, []⟩ :=
  ⟨rfl, rfl⟩

end Clean250
